import Mathlib

/-!
Verification of the conversation-tree state engine of the consolegpt
repository: the persisted node model (`MsgStore` records read and written
through the keyed `storage` wrapper over `localStorage`), the completion
task registry (`completionTaskStore`), the streaming completion protocol
(`chatCompletion`) and the tree mutation algorithms of the `Message`
component (`newBranch`, `editSelect`, `handleItemDelete`, `handleItemClick`,
the recursive `recDel` cascade and the layout-effect weight propagation).

Records are duck-typed in the source (they come out of
`JSON.parse(localStorage.getItem(key) || "{}")`), so every field of the
embedded record type is optional; a missing key reads as the empty record.
JavaScript `null` and `undefined` are both embedded as `none` (no code
path distinguishes them on the fields a claim touches).
-/

set_option maxHeartbeats 1000000

/-- The `role` field of a node record: `"user" | "assistant"`. -/
inductive Role where
  | user
  | assistant
deriving DecidableEq, Repr

/-- The optional `meta` object of a node record: `{ model?, error? }`. -/
structure MetaRec where
  model : Option String := none
  error : Option String := none
deriving DecidableEq, Repr

/-- One persisted node record (the `MsgStore` type of the source).  All
fields are optional because records are parsed from JSON and accessed
duck-typed; the empty record `{}` is what `storage.get` yields for a
missing key. -/
structure MsgRec where
  weight : Option Nat := none
  content : Option String := none
  messages : Option (List String) := none
  select : Option String := none
  meta : Option MetaRec := none
  role : Option Role := none
  id : Option String := none
deriving DecidableEq, Repr

/-- The persistent key-value store (`localStorage` holding one JSON record
per node id), embedded as an association list keyed by the storage key. -/
abbrev Store := List (String × MsgRec)

/-- Raw lookup: `localStorage.getItem(key)` (as a parsed record), `none`
when the key is absent. -/
def lookupRec (st : Store) (k : String) : Option MsgRec :=
  (st.find? (fun p => p.1 == k)).map (·.2)

/-- `storage(key).get()`: `JSON.parse(localStorage.getItem(key) || "{}")` —
the stored record, or the empty record when the key is absent. -/
def getRec (st : Store) (k : String) : MsgRec :=
  (lookupRec st k).getD {}

/-- `storage(key).set(data)`: overwrite the record at `key`. -/
def setRec (st : Store) (k : String) (v : MsgRec) : Store :=
  (k, v) :: st.filter (fun p => p.1 != k)

/-- `storage(key).del()` / `localStorage.removeItem(key)`. -/
def delRec (st : Store) (k : String) : Store :=
  st.filter (fun p => p.1 != k)

/-- The keys currently present in the store. -/
def keysOf (st : Store) : List String := st.map (·.1)

/-- `children` of a node: its record's `messages` field (`[]` when the
field is absent), exactly how every traversal in the source reads it
(`parentMsg.messages || []`, `msg.messages` guarded by `if (!messages)`). -/
def childrenOf (st : Store) (k : String) : List String :=
  (getRec st k).messages.getD []

/-- The persisted weight of a node as every reader of the source consumes
it: `msgData.weight || 0` — an absent `weight` field reads as `0`. -/
def weightOf (st : Store) (k : String) : Nat :=
  (getRec st k).weight.getD 0

/-- The weight the `Message` component computes for the node it renders:
`childMsgs.reduce((p, c) => p + 1 + (c.weight || 0), 0)`. -/
def computeWeight (st : Store) (k : String) : Nat :=
  (childrenOf st k).foldl (fun p c => p + 1 + weightOf st c) 0

/-- One `useLayoutEffect` weight write:
`storage(id).set({ ...parentMsg, weight })`.  (The source skips the write
when the value is unchanged; writing the equal value yields the same
records, so the unconditional write is used here.) -/
def fixStep (st : Store) (k : String) : Store :=
  setRec st k { getRec st k with weight := some (computeWeight st k) }

/-- The layout-effect cascade after a mutation: each mounted `Message`
component recomputes and persists its own node's weight and calls
`onWeightChange`, which refreshes its parent, bottom-up along the mounted
chain of ancestors.  `chain` lists that chain deepest-first (mutated node
first, root last). -/
def fixChain : Store → List String → Store
  | st, [] => st
  | st, c :: rest => fixChain (fixStep st c) rest

/-- JavaScript `x || y` on optional strings: `undefined` and `""` are
falsy (`newMsgs[i] || newMsgs[0] || null`). -/
def jsOr : Option String → Option String → Option String
  | some s, y => if s = "" then y else some s
  | none, y => y

/-- The weight invariant of the spec: every node's persisted weight equals
the sum over its children `c` of `1 + weight(c)` (hence `0` for a node
without children). -/
def WInv (st : Store) : Prop :=
  ∀ y : String, weightOf st y = computeWeight st y

/-- Bounded (decidable) form of `WInv`, quantified over the keys present
in the store; equivalent to `WInv` because an absent record has no
children and weight `0`. -/
def WInvB (st : Store) : Prop :=
  ∀ y ∈ keysOf st, weightOf st y = computeWeight st y

instance (st : Store) : Decidable (WInvB st) := by
  unfold WInvB; infer_instance

/-! ## Task registry (`completionTaskStore`) -/

/-- The registry state: the ids of the tasks currently in the store's
atom (`createAtom<CompletionTask[]>([])`, projected to ids). -/
abbrev Registry := List String

/-- The synchronous registry effect of `newTask`: `storeTask` appends the
new task (`atom.set((prev) => [...prev, task])`).  There is no check for
an already-registered task with the same id. -/
def newTaskStore (reg : Registry) (id : String) : Registry := reg ++ [id]

/-- `removeTask`: `atom.set((prev) => [...prev].filter((t) => t.id !== id))`. -/
def removeTask (reg : Registry) (id : String) : Registry :=
  reg.filter (fun t => t != id)

/-! ## Streaming completion protocol (`chatCompletion`) -/

/-- Observable outcome of one `chatCompletion` exchange. -/
structure CCOut where
  /-- The successive arguments of the `onText` callback (the cumulative
  accumulated text at each nonempty chunk that was delivered). -/
  texts : List String
  /-- `Except.ok` for `resolve`, `Except.error` for `reject`. -/
  outcome : Except String String
  /-- Whether the OpenAI client was constructed and a request opened. -/
  networkOpened : Bool
deriving Repr

/-- The cumulative `onText` argument sequence: `result += content` and
`onText(result)` for every chunk whose `content` is nonempty
(`if (content) { result += content; onText(result) }`). -/
def accTexts (acc : String) : List String → List String
  | [] => []
  | c :: cs => if c = "" then accTexts acc cs else (acc ++ c) :: accTexts (acc ++ c) cs

/-- One `chatCompletion` run, scripted by the chunk sequence the service
would deliver and an optional abort point (`some n`: the abort signal
fires after `n` chunks; `none`: the stream runs to completion).

From the source: a missing `apiKey` rejects with `"API key is required"`
before the client is even constructed; an abort mid-stream raises
`AbortError`, which the catch handler turns into `resolve("")` — the
promise resolves with the EMPTY string, not the accumulated text; a
completed stream resolves with the accumulated text. -/
def chatCompletionRun (apiKey : Option String) (chunks : List String)
    (abortAfter : Option Nat) : CCOut :=
  match apiKey with
  | none => { texts := [], outcome := Except.error "API key is required", networkOpened := false }
  | some _ =>
    let delivered := match abortAfter with | none => chunks | some n => chunks.take n
    let aborted := match abortAfter with | none => false | some n => n < chunks.length
    { texts := accTexts "" delivered
      outcome := if aborted then Except.ok "" else Except.ok (String.join delivered)
      networkOpened := true }

/-- The `onText` handler of `newMessageCompletion` applied to each
cumulative text in turn:
`msgStore.set({ ...msg, content: (msg.content || "") + text + " " })`,
where `msg` is the record captured once when the task was started. -/
def streamFold (st : Store) (msgId : String) (msg : MsgRec) (texts : List String) : Store :=
  texts.foldl
    (fun s t => setRec s msgId { msg with content := some ((msg.content.getD "") ++ t ++ " ") }) st

/-- Everything observable from the asynchronous part of one task started
by `newMessageCompletion` via `completionTaskStore.newTask`. -/
structure TaskRunOut where
  /-- Store after the streamed `onText` content writes. -/
  stStream : Store
  /-- Store after the task settled (done or error path). -/
  stFinal : Store
  /-- Registry after the settle callback removed the task. -/
  regFinal : Registry
  /-- Successive values written to the task's result atom by `onText`. -/
  resultTrace : List String
  /-- Final value of the task's result atom after settling. -/
  resultFinal : String
  /-- Whether the error path (`.catch` → `onError`) ran. -/
  onErrorRan : Bool
  /-- Whether a network exchange was opened. -/
  networkOpened : Bool
deriving Repr

/-- The asynchronous life of one task: stream the chunks through the
`onText` handlers, then settle.  `msg` is the record captured by
`newMessageCompletion` when it started the task; `reg0` is the registry
after the synchronous `storeTask`.

On `resolve(text)`: `result.set(() => text)`, no `onDone` is passed by
`newMessageCompletion`, `removeTask(id)`.  On `reject(error)`:
`result.set((current) => current)`, `onError` writes
`{ ...freshMsg, meta: { ...freshMsg.meta, error } }`, `removeTask(id)`. -/
def runTaskAsync (st0 : Store) (reg0 : Registry) (msgId : String) (msg : MsgRec)
    (apiKey : Option String) (chunks : List String) (abortAfter : Option Nat) : TaskRunOut :=
  let cc := chatCompletionRun apiKey chunks abortAfter
  let stStream := streamFold st0 msgId msg cc.texts
  match cc.outcome with
  | Except.ok t =>
    { stStream := stStream, stFinal := stStream, regFinal := removeTask reg0 msgId
      resultTrace := cc.texts, resultFinal := t
      onErrorRan := false, networkOpened := cc.networkOpened }
  | Except.error e =>
    let freshMsg := getRec stStream msgId
    { stStream := stStream
      stFinal := setRec stStream msgId
        { freshMsg with meta := some { model := freshMsg.meta.bind (·.model), error := some e } }
      regFinal := removeTask reg0 msgId
      resultTrace := cc.texts, resultFinal := cc.texts.getLastD ""
      onErrorRan := true, networkOpened := cc.networkOpened }

/-- A full `newMessageCompletion` call and the life of the task it
starts.  The synchronous part writes `{ ...msgStore.get(), meta: { model } }`
and `storeTask`s the new task; the asynchronous part is `runTaskAsync`. -/
structure CompletionRun extends TaskRunOut where
  /-- Store right after the synchronous meta write. -/
  stSync : Store
  /-- Registry right after the synchronous `storeTask` (the task is
  observable here even when the exchange is already doomed to reject). -/
  regSync : Registry
deriving Repr

/-- `newMessageCompletion({msgId, messages})` under settings
`{ apiKey, model }`, scripted by `chunks`/`abortAfter`. -/
def runNewMessageCompletion (st : Store) (reg : Registry) (model : Option String)
    (msgId : String) (apiKey : Option String) (chunks : List String)
    (abortAfter : Option Nat) : CompletionRun :=
  let msg := { getRec st msgId with meta := some { model := model } }
  let st0 := setRec st msgId msg
  let reg0 := newTaskStore reg msgId
  { runTaskAsync st0 reg0 msgId msg apiKey chunks abortAfter with
    stSync := st0, regSync := reg0 }

/-! ## Tree mutation algorithms (the `Message` component) -/

/-- `handleItemClick(msgId)`:
`storage(id).set({ ...parentMsg, select: msgId })`.  No membership check
is performed on `msgId` (the component also calls this with `""` through
`deselectMsgRef` to deselect). -/
def handleItemClick (st : Store) (p msgId : String) : Store :=
  setRec st p { getRec st p with select := some msgId }

/-- The `childMsgs.find` of the component, as `editSelect`/`newBranch` use
it: the first child record whose stored `id` field equals the parent's
`select` (`childMsgs.find((msg) => msg.id === parentMsg?.select)`);
`none ==  none` is `true`, matching `undefined === undefined`. -/
def findSelected (st : Store) (p : String) : Option MsgRec :=
  (((getRec st p).messages.getD []).map (getRec st)).find?
    (fun m => m.id == (getRec st p).select)

/-- `editSelect(content)`: overwrite the `content` of the currently
selected child record in place
(`storage(selectedMsg.id).set({ ...selectedMsg, content })`); a no-op when
no child matches the parent's `select`.  A record whose `id` field is
absent would be written under the key `"undefined"` (JavaScript coerces
the key). -/
def editSelect (st : Store) (p : String) (content : String) : Store :=
  match findSelected st p with
  | none => st
  | some m => setRec st (m.id.getD "undefined") { m with content := some content }

/-- The first, synchronous phase of `handleItemDelete(msgId)`: drop
`msgId` from the parent's `messages` and re-point `select`
(`newMsgs[deletedChatIndex] || newMsgs[0] || null` when the deleted child
was selected).  `List.findIdx` returns the length when `msgId` is absent,
which indexes out of range exactly as `indexOf` returning `-1` does. -/
def deleteParentUpdate (st : Store) (p msgId : String) : Store :=
  let pm := getRec st p
  let msgs := pm.messages.getD []
  let deletedChatIndex := msgs.findIdx (fun x => x == msgId)
  let newMsgs := msgs.filter (fun x => x != msgId)
  let newSelected :=
    if pm.select == some msgId then
      jsOr (newMsgs.get? deletedChatIndex) (jsOr (newMsgs.get? 0) none)
    else pm.select
  setRec st p { pm with select := newSelected, messages := some newMsgs }

theorem lookupRec_eq_none (st : Store) (k : String) :
    lookupRec st k = none ↔ ∀ q ∈ st, q.1 ≠ k := by
  simp [lookupRec, List.find?_eq_none]

theorem delRec_of_none {st : Store} {k : String} (h : lookupRec st k = none) :
    delRec st k = st := by
  rw [lookupRec_eq_none] at h
  exact List.filter_eq_self.mpr (fun q hq => by simpa using h q hq)

theorem getRec_of_none {st : Store} {k : String} (h : lookupRec st k = none) :
    getRec st k = {} := by
  simp [getRec, h]

theorem delRec_length_lt {st : Store} {k : String} (h : lookupRec st k ≠ none) :
    (delRec st k).length < st.length := by
  rcases Option.ne_none_iff_exists'.mp h with ⟨m, hm⟩
  rcases Option.map_eq_some'.mp hm with ⟨q, hfind, _⟩
  have hqmem := List.mem_of_find?_eq_some hfind
  have hq := List.find?_some hfind
  exact List.length_filter_lt_length_iff_exists.mpr ⟨q, hqmem, by simp_all⟩

/-- The cascading delete `recDel`, linearized as a worklist.  The source
recursion is
`recDel(_id) = { read messages; removeItem(_id); abort task _id; for c in messages: recDel(c) }`,
a pre-order depth-first traversal; popping the head of the worklist and
pushing its children in front performs the identical sequence of store
reads/deletes and abort calls.  Termination is exactly the source's
argument: deleting before recursing means a revisited id reads the empty
record and contributes no further children.  Besides the store, the
accumulator `ab` records the ids whose registered task had its abort
capability invoked (`completionTaskStore.get().find(t => t.id === _id)?.abort()`;
`tasks` is the registry's id list, which the synchronous delete does not
change). -/
def recDelW (tasks : List String) : Store → List String → List String → Store × List String
  | st, [], ab => (st, ab)
  | st, i :: rest, ab =>
    recDelW tasks (delRec st i) ((getRec st i).messages.getD [] ++ rest)
      (if i ∈ tasks then i :: ab else ab)
termination_by st ws _ => (st.length, ws.length)
decreasing_by
  simp_wf
  by_cases h : lookupRec st i = none
  · rw [delRec_of_none h, getRec_of_none h]
    exact Prod.Lex.right _ (by simp)
  · exact Prod.Lex.left _ _ (delRec_length_lt h)

/-- `handleItemDelete(msgId)` in full: the parent update followed by
`recDel(msgId)`.  Returns the final store and the ids whose task was
aborted. -/
def handleItemDelete (tasks : List String) (st : Store) (p msgId : String) :
    Store × List String :=
  recDelW tasks (deleteParentUpdate st p msgId) [msgId] []

/-- The role of a new branch:
`selectedMsg?.role || defaultChildRole`, with
`defaultChildRole = parentMsg?.role === "user" ? "assistant" : "user"`. -/
def branchRole (st : Store) (p : String) : Role :=
  ((findSelected st p).bind (·.role)).getD
    (if (getRec st p).role == some Role.user then Role.assistant else Role.user)

/-- The guard of the answer branch of `newBranch`:
`addAnswer && content && msg.role === "user"` (`""` is falsy). -/
def branchAnswering (st : Store) (p : String) (content : Option String)
    (addAnswer : Bool) : Bool :=
  addAnswer && (content.getD "" != "") && (branchRole st p == Role.user)

/-- `newBranch({content, fillContent, addAnswer})` on parent `p`.  The two
fresh ids the source draws from `nanoid` are parameters (`msgId` for the
new branch, `childMsgId` for the answer placeholder).  Returns the store
and the registry after the synchronous part of the call (the tasks
started through `newMessageCompletion` are appended by `storeTask`; their
asynchronous life is `runTaskAsync`).  Store writes, in source order:
the answer placeholder (when answering), the placeholder's meta from
`newMessageCompletion`, the new branch record, its meta when
`fillContent` starts a task for it, and finally the parent
(`{ ...parentMsg, messages: [msgId, ...(parentMsg.messages || [])], select: msgId }`). -/
def newBranchFull (st : Store) (reg : Registry) (model : Option String)
    (p msgId childMsgId : String) (content : Option String)
    (fillContent addAnswer : Bool) : Store × Registry :=
  let pm := getRec st p
  let msg0 : MsgRec := { id := some msgId, role := some (branchRole st p), content := content }
  let (st1, msg1, reg1) :=
    if branchAnswering st p content addAnswer then
      let sA := setRec st childMsgId { id := some childMsgId, role := some Role.assistant }
      let sB := setRec sA childMsgId
        { getRec sA childMsgId with meta := some { model := model } }
      (sB, { msg0 with messages := some [childMsgId], select := some childMsgId },
        newTaskStore reg childMsgId)
    else (st, msg0, reg)
  let st2 := setRec st1 msgId msg1
  let (st3, reg2) :=
    if fillContent && !addAnswer && (msg1.role == some Role.assistant) then
      (setRec st2 msgId { getRec st2 msgId with meta := some { model := model } },
        newTaskStore reg1 msgId)
    else (st2, reg1)
  (setRec st3 p { pm with messages := some (msgId :: pm.messages.getD []), select := some msgId },
    reg2)

/-- The four mutations of the tree, as one datatype so the invariants of
the spec can be stated once over every mutation. -/
inductive Mutation where
  | click (p childId : String)
  | edit (p : String) (content : String)
  | del (p msgId : String)
  | branch (model : Option String) (p msgId childMsgId : String)
      (content : Option String) (fillContent addAnswer : Bool)

/-- Apply a mutation to the store and the task registry.  `tasks` is the
registry id list the delete cascade consults for aborts (aborting does
not remove a task synchronously, so `del` leaves the registry unchanged;
only `branch` can start tasks). -/
def applyMutation (tasks : List String) (m : Mutation) (s : Store × Registry) :
    Store × Registry :=
  match m with
  | Mutation.click p c => (handleItemClick s.1 p c, s.2)
  | Mutation.edit p c => (editSelect s.1 p c, s.2)
  | Mutation.del p msgId => ((handleItemDelete tasks s.1 p msgId).1, s.2)
  | Mutation.branch model p a b c fC aA => newBranchFull s.1 s.2 model p a b c fC aA

/-! ## Reachability through the children chains -/

/-- `Reach st a b`: node `b` is in the closure of `a` under the children
chains of store `st` (the set the cascading delete is specified to
remove). -/
inductive Reach (st : Store) (a : String) : String → Prop where
  | refl : Reach st a a
  | tail {b c : String} : Reach st a b → c ∈ childrenOf st b → Reach st a c

/-- The select invariant, in the exact wording of the claim: a `select`
that is present and non-null names a member of the same record's
`children` sequence. -/
def SelInvStrict (st : Store) : Prop :=
  ∀ y : String, ∀ s, (getRec st y).select = some s → s ∈ (getRec st y).messages.getD []

/-- The select invariant the code actually maintains: `select`, when
present, is a member of the record's `children` or the empty-string
deselect sentinel (written by the New Chat action and naming no child). -/
def SelInv (st : Store) : Prop :=
  ∀ y : String, ∀ s, (getRec st y).select = some s →
    s = "" ∨ s ∈ (getRec st y).messages.getD []

/-- Bounded (decidable) form of `SelInv` over the keys present in the
store (an absent record has no `select`). -/
def SelInvB (st : Store) : Prop :=
  ∀ y ∈ keysOf st, ∀ s, (getRec st y).select = some s →
    s = "" ∨ s ∈ (getRec st y).messages.getD []

instance (st : Store) : Decidable (SelInvB st) := by
  unfold SelInvB
  have : ∀ m : MsgRec, Decidable (∀ s, m.select = some s → s = "" ∨ s ∈ m.messages.getD []) := by
    intro m
    rcases m.select with _ | s
    · exact Decidable.isTrue (by simp)
    · rcases (inferInstance : Decidable (s = "" ∨ s ∈ m.messages.getD [])) with h | h
      · exact Decidable.isFalse (by simpa using h)
      · exact Decidable.isTrue (by simpa using h)
  exact List.decidableBAll _ _

/-- The per-record select condition `SelInv` states for every record. -/
def selOKrec (m : MsgRec) : Prop :=
  ∀ s, m.select = some s → s = "" ∨ s ∈ m.messages.getD []

/-- The caller-side condition under which a mutation keeps the select
invariant: only selection needs one — the clicked id must be a current
child or the empty deselect sentinel (the only two kinds of argument the
component ever passes). -/
def selMutOK : Mutation → Store → Prop
  | Mutation.click p c, st => c ∈ childrenOf st p ∨ c = ""
  | _, _ => True

/-- The mounted-ancestor chain the layout-effect cascade runs over, as a
structural condition on the post-mutation store: every node that lists a
chain element among its children is the next chain element (each chain
node has a unique parent, the one mounted above it), and the chain's last
element (the root) is nobody's child.  Stated bounded over the present
keys (an absent record has no children), so it is decidable on concrete
stores. -/
def chainLinked (st : Store) (chain : List String) : Prop :=
  ∀ i ∈ List.range chain.length, ∀ y ∈ keysOf st,
    chain.getD i "" ∈ childrenOf st y → chain.get? (i + 1) = some y

instance (st : Store) (chain : List String) : Decidable (chainLinked st chain) := by
  unfold chainLinked
  infer_instance

/-- The per-mutation side conditions under which the weight cascade
re-establishes the weight invariant: nothing for selection; for edit, the
records listed as the parent's children carry their own key in their `id`
field (so the write lands on the selected child's own key); for delete,
the mutated parent is on the mounted chain and no surviving off-chain
node lost a child's record (in a tree the deleted subtree hangs only
below the parent); for branch creation, the parent is on the chain, the
new user node is on the chain when an answer placeholder was attached
under it, and the two fresh ids are not listed as children anywhere. -/
def mutationWeightHyps (tasks : List String) : Mutation → Store → List String → Prop
  | Mutation.click _ _, _, _ => True
  | Mutation.edit p _, st, _ =>
      ∀ c ∈ (getRec st p).messages.getD [], (getRec st c).id = some c
  | Mutation.del p msgId, st, chain => p ∈ chain ∧
      (∀ y ∈ keysOf (handleItemDelete tasks st p msgId).1, y ∉ chain →
        ∀ c ∈ childrenOf (handleItemDelete tasks st p msgId).1 y,
          lookupRec (handleItemDelete tasks st p msgId).1 c = lookupRec st c)
  | Mutation.branch _ p a b c _ aA, st, chain => p ∈ chain ∧
      (branchAnswering st p c aA = true → a ∈ chain) ∧
      (∀ y ∈ keysOf st, a ∉ childrenOf st y ∧ b ∉ childrenOf st y)

/-! ## The JSON serialization boundary (`storage` over `localStorage`) -/

/-- JSON values, the shape of what `JSON.stringify` writes and
`JSON.parse` returns for a node record. -/
inductive JVal where
  | jnull
  | jstr (s : String)
  | jnum (n : Nat)
  | jarr (xs : List JVal)
  | jobj (fields : List (String × JVal))
deriving Repr

/-- A field of a serialized object: `JSON.stringify` drops a field whose
value is `undefined`, so a `none` field is simply not emitted. -/
def optField (name : String) (v : Option JVal) : List (String × JVal) :=
  match v with
  | none => []
  | some j => [(name, j)]

/-- Duck-typed field access on a parsed JSON value (`record.field`). -/
def jGet : JVal → String → Option JVal
  | JVal.jobj fs, name => (fs.find? (fun f => f.1 == name)).map (·.2)
  | _, _ => none

def asStr : JVal → Option String
  | JVal.jstr s => some s
  | _ => none

def asNum : JVal → Option Nat
  | JVal.jnum n => some n
  | _ => none

def asStrList : JVal → Option (List String)
  | JVal.jarr xs => xs.mapM asStr
  | _ => none

def asRole : JVal → Option Role
  | JVal.jstr "user" => some Role.user
  | JVal.jstr "assistant" => some Role.assistant
  | _ => none

def roleToJ : Role → JVal
  | Role.user => JVal.jstr "user"
  | Role.assistant => JVal.jstr "assistant"

def metaToJ (m : MetaRec) : JVal :=
  JVal.jobj (optField "model" (m.model.map JVal.jstr) ++ optField "error" (m.error.map JVal.jstr))

def asMeta : JVal → Option MetaRec
  | JVal.jobj fs =>
    some { model := ((fs.find? (fun f => f.1 == "model")).map (·.2)).bind asStr
           error := ((fs.find? (fun f => f.1 == "error")).map (·.2)).bind asStr }
  | _ => none

/-- `JSON.stringify` of a node record: each defined field serialized with
its JSON encoding, fields in declaration order, `undefined` (i.e. `none`)
fields dropped. -/
def msgToJ (m : MsgRec) : JVal :=
  JVal.jobj
    (optField "weight" (m.weight.map JVal.jnum) ++
     optField "content" (m.content.map JVal.jstr) ++
     optField "messages" (m.messages.map (fun l => JVal.jarr (l.map JVal.jstr))) ++
     optField "select" (m.select.map JVal.jstr) ++
     optField "meta" (m.meta.map metaToJ) ++
     optField "role" (m.role.map roleToJ) ++
     optField "id" (m.id.map JVal.jstr))

/-- `JSON.parse` of a serialized node record, read duck-typed into the
record shape (each field recovered by name, absent or ill-typed fields
defaulting to `undefined`). -/
def msgFromJ (j : JVal) : MsgRec :=
  { weight := (jGet j "weight").bind asNum
    content := (jGet j "content").bind asStr
    messages := (jGet j "messages").bind asStrList
    select := (jGet j "select").bind asStr
    meta := (jGet j "meta").bind asMeta
    role := (jGet j "role").bind asRole
    id := (jGet j "id").bind asStr }

/-- `localStorage` at the serialization boundary: the raw stored JSON
values. -/
abbrev RawStore := List (String × JVal)

/-- `storage(key).set(data)`: `localStorage.setItem(key, JSON.stringify(data))`. -/
def rawSet (ls : RawStore) (k : String) (v : MsgRec) : RawStore :=
  (k, msgToJ v) :: ls.filter (fun p => p.1 != k)

/-- `storage(key).get()`: `JSON.parse(localStorage.getItem(key) || "{}")`,
duck-typed back into the record shape. -/
def rawGet (ls : RawStore) (k : String) : MsgRec :=
  msgFromJ (((ls.find? (fun p => p.1 == k)).map (·.2)).getD (JVal.jobj []))

/-! ## Basic store lemmas -/

theorem lookupRec_filter_ne {st : Store} {y : String} (f : String × MsgRec → Bool)
    (hy : ∀ q : String × MsgRec, q.1 = y → f q = true) :
    lookupRec (st.filter f) y = lookupRec st y := by
  induction st with
  | nil => rfl
  | cons q rest ih =>
    by_cases hqy : ((fun p : String × MsgRec => p.1 == y) q) = true
    · rw [List.filter_cons_of_pos (hy q (by simpa using hqy))]
      unfold lookupRec
      rw [@List.find?_cons_of_pos _ (fun p => p.1 == y) q (List.filter f rest) hqy,
        @List.find?_cons_of_pos _ (fun p => p.1 == y) q rest hqy]
    · by_cases hfq : f q = true
      · rw [List.filter_cons_of_pos hfq]
        unfold lookupRec
        rw [@List.find?_cons_of_neg _ (fun p => p.1 == y) q (List.filter f rest) hqy,
          @List.find?_cons_of_neg _ (fun p => p.1 == y) q rest hqy]
        exact ih
      · rw [List.filter_cons_of_neg (by simpa using hfq)]
        unfold lookupRec at ih ⊢
        rw [@List.find?_cons_of_neg _ (fun p => p.1 == y) q rest hqy]
        exact ih

theorem lookupRec_setRec_self (st : Store) (k : String) (v : MsgRec) :
    lookupRec (setRec st k v) k = some v := by
  simp [lookupRec, setRec, List.find?]

theorem lookupRec_setRec_ne (st : Store) (k : String) (v : MsgRec) {y : String}
    (h : y ≠ k) :
    lookupRec (setRec st k v) y = lookupRec st y := by
  simp only [setRec, lookupRec]
  rw [List.find?_cons_of_neg _ (by simpa using Ne.symm h)]
  exact lookupRec_filter_ne _ (fun q hq => by simp [hq, h])

theorem getRec_setRec_self (st : Store) (k : String) (v : MsgRec) :
    getRec (setRec st k v) k = v := by
  simp [getRec, lookupRec_setRec_self]

theorem getRec_setRec_ne (st : Store) (k : String) (v : MsgRec) {y : String}
    (h : y ≠ k) :
    getRec (setRec st k v) y = getRec st y := by
  simp [getRec, lookupRec_setRec_ne st k v h]

theorem lookupRec_delRec (st : Store) (k : String) {y : String} (h : y ≠ k) :
    lookupRec (delRec st k) y = lookupRec st y :=
  lookupRec_filter_ne _ (fun q hq => by simp [hq, h])

theorem lookupRec_delRec_self (st : Store) (k : String) :
    lookupRec (delRec st k) k = none := by
  rw [lookupRec_eq_none]
  intro q hq
  have := List.of_mem_filter hq
  simpa using this

theorem lookupRec_of_not_mem_keys {st : Store} {y : String} (h : y ∉ keysOf st) :
    lookupRec st y = none := by
  rw [lookupRec_eq_none]
  intro q hq he
  exact h (he ▸ List.mem_map_of_mem (·.1) hq)

theorem getRec_empty_of_none {st : Store} {y : String} (h : lookupRec st y = none) :
    getRec st y = {} := by simp [getRec, h]

theorem childrenOf_of_none {st : Store} {y : String} (h : lookupRec st y = none) :
    childrenOf st y = [] := by
  simp [childrenOf, getRec_empty_of_none h]

theorem weightOf_of_none {st : Store} {y : String} (h : lookupRec st y = none) :
    weightOf st y = 0 := by
  simp [weightOf, getRec_empty_of_none h]

theorem computeWeight_of_none {st : Store} {y : String} (h : lookupRec st y = none) :
    computeWeight st y = 0 := by
  simp [computeWeight, childrenOf_of_none h]

/-- `WInv` from its bounded form. -/
theorem winv_of_winvB {st : Store} (h : WInvB st) : WInv st := by
  intro y
  by_cases hy : y ∈ keysOf st
  · exact h y hy
  · rw [weightOf_of_none (lookupRec_of_not_mem_keys hy),
      computeWeight_of_none (lookupRec_of_not_mem_keys hy)]

/-- `SelInv` from its bounded form. -/
theorem selInv_of_selInvB {st : Store} (h : SelInvB st) : SelInv st := by
  intro y s hs
  by_cases hy : y ∈ keysOf st
  · exact h y hy s hs
  · rw [getRec_empty_of_none (lookupRec_of_not_mem_keys hy)] at hs
    cases hs

/-! ## JSON round-trip lemmas -/

theorem mapM_loop_asStr (l acc : List String) :
    List.mapM.loop asStr (l.map JVal.jstr) acc = some (acc.reverse ++ l) := by
  induction l generalizing acc with
  | nil => simp [List.mapM.loop]
  | cons a as ih => simp [List.mapM.loop, asStr, ih]

theorem mapM_asStr_map_jstr (l : List String) :
    (l.map JVal.jstr).mapM asStr = some l := by
  simp [List.mapM, mapM_loop_asStr]

theorem asMeta_metaToJ (mm : MetaRec) : asMeta (metaToJ mm) = some mm := by
  rcases mm with ⟨mo, me⟩
  cases mo <;> cases me <;> rfl

theorem asRole_roleToJ (r : Role) : asRole (roleToJ r) = some r := by
  cases r <;> rfl

theorem msgFromJ_msgToJ (m : MsgRec) : msgFromJ (msgToJ m) = m := by
  rcases m with ⟨w, c, ms, sel, mt, r, i⟩
  cases w <;> cases c <;> cases ms <;> cases sel <;> cases mt <;> cases r <;> cases i <;>
    simp [msgToJ, msgFromJ, jGet, optField, asStr, asNum, asStrList,
      mapM_asStr_map_jstr, mapM_loop_asStr, asMeta_metaToJ, asRole_roleToJ]

/-- Two stores assigning every node the same children and the same
persisted weights compute the same weight everywhere. -/
theorem computeWeight_congr {st₁ st₂ : Store} {y : String}
    (hc : childrenOf st₁ y = childrenOf st₂ y)
    (hw : ∀ c ∈ childrenOf st₂ y, weightOf st₁ c = weightOf st₂ c) :
    computeWeight st₁ y = computeWeight st₂ y := by
  unfold computeWeight
  rw [hc]
  have : ∀ (l : List String) (a : Nat), (∀ c ∈ l, weightOf st₁ c = weightOf st₂ c) →
      l.foldl (fun p c => p + 1 + weightOf st₁ c) a =
      l.foldl (fun p c => p + 1 + weightOf st₂ c) a := by
    intro l
    induction l with
    | nil => intro a _; rfl
    | cons c cs ih =>
      intro a hl
      simp only [List.foldl_cons]
      rw [hl c (by simp)]
      exact ih _ (fun x hx => hl x (by simp [hx]))
  exact this _ 0 hw

/-! ## The cascading delete: specification of `recDelW` -/

theorem recDelW_nil (tasks : List String) (st : Store) (ab : List String) :
    recDelW tasks st [] ab = (st, ab) := by
  rw [recDelW]

theorem recDelW_cons (tasks : List String) (st : Store) (i : String)
    (rest ab : List String) :
    recDelW tasks st (i :: rest) ab =
      recDelW tasks (delRec st i) (childrenOf st i ++ rest)
        (if i ∈ tasks then i :: ab else ab) := by
  rw [recDelW]
  rfl

theorem Reach.trans {st : Store} {a b c : String}
    (h1 : Reach st a b) (h2 : Reach st b c) : Reach st a c := by
  induction h2 with
  | refl => exact h1
  | tail _ hc ih => exact Reach.tail ih hc

theorem reach_mono {st₁ st₂ : Store} {a y : String}
    (hsub : ∀ b, ∀ c ∈ childrenOf st₁ b, c ∈ childrenOf st₂ b)
    (hr : Reach st₁ a y) : Reach st₂ a y := by
  induction hr with
  | refl => exact Reach.refl
  | tail _ hc ih => exact Reach.tail ih (hsub _ _ hc)

theorem childrenOf_delRec_sub (st : Store) (i b : String) :
    ∀ c ∈ childrenOf (delRec st i) b, c ∈ childrenOf st b := by
  intro c hc
  by_cases hbi : b = i
  · subst hbi
    rw [childrenOf_of_none (lookupRec_delRec_self st b)] at hc
    cases hc
  · unfold childrenOf getRec at hc
    rw [lookupRec_delRec st i hbi] at hc
    exact hc

/-- The combined postcondition of the delete cascade, by strong induction
on the store size: the run (1) only removes records, (2) only grows the
abort list, (3) deletes (and abort-visits) every worklist id, (4) leaves
no deleted node with a surviving or unvisited child, and (5) deletes
nothing that was not reachable from the worklist. -/
theorem recDelW_spec (tasks : List String) :
    ∀ n : Nat, ∀ st : Store, st.length ≤ n → ∀ ws ab,
      (∀ x, lookupRec (recDelW tasks st ws ab).1 x = none ∨
            lookupRec (recDelW tasks st ws ab).1 x = lookupRec st x) ∧
      (∀ t ∈ ab, t ∈ (recDelW tasks st ws ab).2) ∧
      (∀ i ∈ ws, lookupRec (recDelW tasks st ws ab).1 i = none ∧
            (i ∈ tasks → i ∈ (recDelW tasks st ws ab).2)) ∧
      (∀ y, lookupRec st y ≠ none → lookupRec (recDelW tasks st ws ab).1 y = none →
            ∀ c ∈ childrenOf st y, lookupRec (recDelW tasks st ws ab).1 c = none ∧
              (c ∈ tasks → c ∈ (recDelW tasks st ws ab).2)) ∧
      (∀ y, lookupRec (recDelW tasks st ws ab).1 y = none →
            lookupRec st y = none ∨ ∃ w ∈ ws, Reach st w y) := by
  intro n
  induction n using Nat.strong_induction_on with
  | _ n ih =>
    intro st hst ws
    induction ws with
    | nil =>
      intro ab
      rw [recDelW_nil]
      refine ⟨fun x => Or.inr rfl, fun t ht => ht, fun i hi => absurd hi (by simp),
        fun y hy hn => absurd hn hy, fun y h => Or.inl h⟩
    | cons i rest ihw =>
      intro ab
      rw [recDelW_cons]
      have hab : ∀ t ∈ ab, t ∈ (if i ∈ tasks then i :: ab else ab) := by
        intro t ht
        by_cases h : i ∈ tasks <;> simp [h, ht]
      have habi : i ∈ tasks → i ∈ (if i ∈ tasks then i :: ab else ab) := by
        intro h
        simp [h]
      by_cases hpres : lookupRec st i = none
      · have hst' : delRec st i = st := delRec_of_none hpres
        have hch0 : childrenOf st i = [] := childrenOf_of_none hpres
        rw [hst', hch0, List.nil_append]
        obtain ⟨q1, q2, q3, q4, q5⟩ := ihw (if i ∈ tasks then i :: ab else ab)
        refine ⟨q1, fun t ht => q2 t (hab t ht), ?_, q4, ?_⟩
        · intro j hj
          rcases List.mem_cons.mp hj with hj | hj
          · subst hj
            constructor
            · rcases q1 j with h | h
              · exact h
              · rw [h]; exact hpres
            · intro hjt
              exact q2 j (habi hjt)
          · exact q3 j hj
        · intro y hy
          rcases q5 y hy with h | ⟨w, hw, hr⟩
          · exact Or.inl h
          · exact Or.inr ⟨w, List.mem_cons_of_mem i hw, hr⟩
      · have hlt : (delRec st i).length < st.length := delRec_length_lt hpres
        have hn1 : 1 ≤ n := by
          have : st.length ≥ 1 := by
            cases st with
            | nil => simp [lookupRec] at hpres
            | cons a l => simp
          omega
        obtain ⟨q1, q2, q3, q4, q5⟩ :=
          ih (n - 1) (by omega) (delRec st i) (by omega)
            (childrenOf st i ++ rest) (if i ∈ tasks then i :: ab else ab)
        refine ⟨?_, fun t ht => q2 t (hab t ht), ?_, ?_, ?_⟩
        · intro x
          rcases q1 x with h | h
          · exact Or.inl h
          · by_cases hxi : x = i
            · subst hxi
              rw [h, lookupRec_delRec_self]
              exact Or.inl rfl
            · rw [h, lookupRec_delRec st i hxi]
              exact Or.inr rfl
        · intro j hj
          rcases List.mem_cons.mp hj with hj | hj
          · subst hj
            constructor
            · rcases q1 j with h | h
              · exact h
              · rw [h]; exact lookupRec_delRec_self st j
            · intro hjt
              exact q2 j (habi hjt)
          · exact q3 j (List.mem_append_right _ hj)
        · intro y hy hnone c hc
          by_cases hyi : y = i
          · subst hyi
            exact q3 c (List.mem_append_left _ hc)
          · have hy' : lookupRec (delRec st i) y ≠ none := by
              rw [lookupRec_delRec st i hyi]; exact hy
            have hch' : childrenOf (delRec st i) y = childrenOf st y := by
              unfold childrenOf getRec
              rw [lookupRec_delRec st i hyi]
            exact q4 y hy' hnone c (by rw [hch']; exact hc)
        · intro y hnone
          rcases q5 y hnone with h' | ⟨w, hw, hr⟩
          · by_cases hyi : y = i
            · exact Or.inr ⟨i, List.mem_cons_self i rest, hyi ▸ Reach.refl⟩
            · rw [lookupRec_delRec st i hyi] at h'
              exact Or.inl h'
          · have hr' : Reach st w y := reach_mono (childrenOf_delRec_sub st i) hr
            rcases List.mem_append.mp hw with hw | hw
            · exact Or.inr ⟨i, List.mem_cons_self i rest,
                Reach.trans (Reach.tail Reach.refl hw) hr'⟩
            · exact Or.inr ⟨w, List.mem_cons_of_mem i hw, hr'⟩

/-- Everything reachable from the worklist is deleted and, when a task for
it is registered, abort-visited. -/
theorem recDelW_reach (tasks : List String) (st : Store) (ws ab : List String)
    {w x : String} (hw : w ∈ ws) (hr : Reach st w x) :
    lookupRec (recDelW tasks st ws ab).1 x = none ∧
      (x ∈ tasks → x ∈ (recDelW tasks st ws ab).2) := by
  obtain ⟨_, _, q3, q4, _⟩ := recDelW_spec tasks st.length st (Nat.le_refl _) ws ab
  induction hr with
  | refl => exact q3 w hw
  | tail hab hc ih =>
    rename_i b c
    have hb : lookupRec st b ≠ none := by
      intro hn
      rw [childrenOf_of_none hn] at hc
      cases hc
    exact q4 b hb ih.1 c hc

/-- Surviving records are exactly the records of the original store: a
node not reachable from the worklist keeps its record. -/
theorem recDelW_frame (tasks : List String) (st : Store) (ws ab : List String)
    {x : String} (hx : ¬ ∃ w ∈ ws, Reach st w x) :
    lookupRec (recDelW tasks st ws ab).1 x = lookupRec st x := by
  obtain ⟨q1, _, _, _, q5⟩ := recDelW_spec tasks st.length st (Nat.le_refl _) ws ab
  rcases q1 x with h | h
  · rcases q5 x h with h' | h'
    · rw [h, h']
    · exact absurd h' hx
  · exact h

/-! ## Streaming lemmas -/

theorem streamFold_getRec_self (st0 : Store) (msgId : String) (msg : MsgRec) :
    ∀ texts : List String, getRec (streamFold st0 msgId msg texts) msgId =
      match texts.getLast? with
      | none => getRec st0 msgId
      | some t => { msg with content := some ((msg.content.getD "") ++ t ++ " ") } := by
  have key : ∀ (texts : List String) (s0 : Store) (lst : String),
      texts.getLast? = some lst →
      getRec (streamFold s0 msgId msg texts) msgId =
        { msg with content := some ((msg.content.getD "") ++ lst ++ " ") } := by
    intro texts
    induction texts with
    | nil => intro s0 lst h; cases h
    | cons t ts ih =>
      intro s0 lst h
      cases ts with
      | nil =>
        rw [List.getLast?_singleton] at h
        rw [← Option.some.inj h]
        simp [streamFold, getRec_setRec_self]
      | cons t' ts' =>
        rw [List.getLast?_cons_cons] at h
        have h1 := ih (setRec s0 msgId
          { msg with content := some ((msg.content.getD "") ++ t ++ " ") }) lst h
        simpa [streamFold] using h1
  intro texts
  cases texts with
  | nil => rfl
  | cons t ts =>
    have hne : (t :: ts) ≠ [] := by simp
    have hlst : (t :: ts).getLast? = some ((t :: ts).getLast hne) :=
      List.getLast?_eq_getLast _ hne
    rw [hlst, key _ _ _ hlst]

theorem streamFold_getRec_ne (st0 : Store) (msgId : String) (msg : MsgRec)
    (texts : List String) {y : String} (hy : y ≠ msgId) :
    getRec (streamFold st0 msgId msg texts) y = getRec st0 y := by
  induction texts generalizing st0 with
  | nil => rfl
  | cons t ts ih =>
    show getRec (streamFold (setRec st0 msgId _) msgId msg ts) y = getRec st0 y
    rw [ih, getRec_setRec_ne _ _ _ hy]

/-- A node with no children reaches only itself. -/
theorem reach_of_no_children {st : Store} {a y : String}
    (h : childrenOf st a = []) (hr : Reach st a y) : y = a := by
  induction hr with
  | refl => rfl
  | tail hab hc ih =>
    rw [ih] at hc
    rw [h] at hc
    cases hc

/-- C10: for every key and every node record `v`, a storage `set(key, v)`
followed by `get(key)` returns a record structurally equal to `v`
restricted to its defined fields (`JSON.stringify` drops the undefined
ones, which the embedding represents as `none`): the persistence layer
round-trips every node record through JSON serialization without
altering stored field values. -/
theorem c10_storage_roundtrip (ls : RawStore) (k : String) (v : MsgRec) :
    rawGet (rawSet ls k v) k = v := by
  simp [rawGet, rawSet, List.find?, msgFromJ_msgToJ]

/-- C3, counterexample: `newTask` performs no duplicate-id check —
starting a task for id `"a"` while a task with id `"a"` is already
registered leaves TWO tasks with that id in the registry, so the claimed
"at most one active task per node id, a second `newTask` is rejected"
fails on the code. -/
theorem c3_counterexample :
    (newTaskStore (newTaskStore [] "a") "a").count "a" = 2 ∧
    ¬ (newTaskStore (newTaskStore [] "a") "a").count "a" ≤ 1 := by
  constructor
  · rfl
  · decide

/-- C3, amended: the registry does not reject duplicate ids — `newTask`
unconditionally appends, so each call increases the number of registered
tasks carrying its id by one; at most one task per id holds only when the
caller starts tasks for fresh ids (which every call site does, via
`nanoid`): starting a task for an id with no registered task yields
exactly one. -/
theorem c3_newTask_appends (reg : Registry) (id : String) :
    (newTaskStore reg id).count id = reg.count id + 1 ∧
    (reg.count id = 0 → (newTaskStore reg id).count id = 1) := by
  refine ⟨?_, ?_⟩
  · simp [newTaskStore]
  · intro h
    simp [newTaskStore, h]

/-- C3, witness for the amended theorem at a concrete input. -/
theorem c3_newTask_appends_witness :
    (newTaskStore [] "a").count "a" = ([] : Registry).count "a" + 1 ∧
    (([] : Registry).count "a" = 0 → (newTaskStore [] "a").count "a" = 1) :=
  c3_newTask_appends [] "a"

/-- C1: for every node id, the delete operation (`handleItemDelete`, whose
cascade is `recDel`) removes the record of that node and of every
descendant transitively reachable through the `messages` chains from the
persistent store, and invokes the abort capability of every registered
task whose id is in that closure; afterwards a storage `get` for any id in
the closure returns the empty-record default.  (The closure is taken in
the store the cascade runs on, i.e. after the parent's record was
re-written; the parent update touches no `messages` chain below the
deleted node.) -/
theorem c1_cascading_delete (tasks : List String) (st : Store) (p msgId x : String)
    (h : Reach (deleteParentUpdate st p msgId) msgId x) :
    getRec (handleItemDelete tasks st p msgId).1 x = {} ∧
      (x ∈ tasks → x ∈ (handleItemDelete tasks st p msgId).2) := by
  unfold handleItemDelete
  have hq := recDelW_reach tasks (deleteParentUpdate st p msgId) [msgId] []
    (List.mem_cons_self msgId []) h
  exact ⟨getRec_empty_of_none hq.1, hq.2⟩

/-- C1, witness: a three-node chain `p → x → y` with a registered task for
`y`; deleting `x` removes `x` and `y` and aborts `y`'s task. -/
theorem c1_cascading_delete_witness :
    Reach (deleteParentUpdate
        [("p", { messages := some ["x"] }), ("x", { messages := some ["y"] }), ("y", {})]
        "p" "x") "x" "y" ∧
      (getRec (handleItemDelete ["y"]
          [("p", { messages := some ["x"] }), ("x", { messages := some ["y"] }), ("y", {})]
          "p" "x").1 "y" = {} ∧
        ("y" ∈ ["y"] → "y" ∈ (handleItemDelete ["y"]
          [("p", { messages := some ["x"] }), ("x", { messages := some ["y"] }), ("y", {})]
          "p" "x").2)) := by
  have hr : Reach (deleteParentUpdate
      [("p", { messages := some ["x"] }), ("x", { messages := some ["y"] }), ("y", {})]
      "p" "x") "x" "y" :=
    Reach.tail Reach.refl (by decide)
  exact ⟨hr, c1_cascading_delete ["y"] _ "p" "x" "y" hr⟩

/-- C6: when a node has at least two (distinct, nonempty-id) children and
its `select` points at the deleted child, `handleItemDelete` removes that
child id from the parent's `messages` and re-points `select` to the
sibling occupying the same list position after removal
(`newMsgs[deletedChatIndex]`), falling back to the new first sibling
(`newMsgs[0]`), and to null only when no sibling remains — in particular
`select` never becomes null here because a sibling survives.  (`hnr` says
the deleted child's subtree does not contain the parent, which is what
makes the parent's record survive the cascade.) -/
theorem c6_delete_reselect (tasks : List String) (st : Store) (p msgId : String)
    (ms : List String)
    (hms : (getRec st p).messages = some ms)
    (hsel : (getRec st p).select = some msgId)
    (hnd : ms.Nodup)
    (hne : "" ∉ ms)
    (h2 : 2 ≤ ms.length)
    (hnr : ¬ Reach (deleteParentUpdate st p msgId) msgId p) :
    ((getRec (handleItemDelete tasks st p msgId).1 p).messages
        = some (ms.filter (fun x => x != msgId))) ∧
    (getRec (handleItemDelete tasks st p msgId).1 p).select ≠ none ∧
    (∀ s, (getRec (handleItemDelete tasks st p msgId).1 p).select = some s →
        s ∈ ms.filter (fun x => x != msgId)) ∧
    (ms.findIdx (fun x => x == msgId) < (ms.filter (fun x => x != msgId)).length →
        (getRec (handleItemDelete tasks st p msgId).1 p).select
          = (ms.filter (fun x => x != msgId)).get? (ms.findIdx (fun x => x == msgId))) ∧
    ((ms.filter (fun x => x != msgId)).length ≤ ms.findIdx (fun x => x == msgId) →
        (getRec (handleItemDelete tasks st p msgId).1 p).select
          = (ms.filter (fun x => x != msgId)).get? 0) := by
  have hframe : lookupRec (handleItemDelete tasks st p msgId).1 p
      = lookupRec (deleteParentUpdate st p msgId) p := by
    unfold handleItemDelete
    apply recDelW_frame
    rintro ⟨w, hw, hr⟩
    rcases List.mem_cons.mp hw with hw | hw
    · exact hnr (hw ▸ hr)
    · cases hw
  have hget : getRec (handleItemDelete tasks st p msgId).1 p
      = getRec (deleteParentUpdate st p msgId) p := by
    unfold getRec
    rw [hframe]
  have hpar : getRec (deleteParentUpdate st p msgId) p
      = { getRec st p with
          select := jsOr ((ms.filter (fun x => x != msgId)).get?
              (ms.findIdx (fun x => x == msgId)))
            (jsOr ((ms.filter (fun x => x != msgId)).get? 0) none),
          messages := some (ms.filter (fun x => x != msgId)) } := by
    unfold deleteParentUpdate
    rw [getRec_setRec_self]
    simp [hms, hsel]
  rw [hget, hpar]
  set newMsgs := ms.filter (fun x => x != msgId) with hnew
  set idx := ms.findIdx (fun x => x == msgId) with hidx
  have hnonempty : newMsgs ≠ [] := by
    match ms, h2 with
    | a :: b :: t, _ =>
      have hab : a ≠ b := by
        have := List.nodup_cons.mp hnd
        exact fun h => this.1 (h ▸ List.mem_cons_self b t)
      rw [hnew]
      intro hemp
      by_cases ha : a = msgId
      · have hb : b ≠ msgId := fun h => hab (ha.trans h.symm)
        have : b ∈ List.filter (fun x => x != msgId) (a :: b :: t) :=
          List.mem_filter.mpr ⟨by simp, by simpa using hb⟩
        rw [hemp] at this
        cases this
      · have : a ∈ List.filter (fun x => x != msgId) (a :: b :: t) :=
          List.mem_filter.mpr ⟨by simp, by simpa using ha⟩
        rw [hemp] at this
        cases this
  have hmemne : ∀ s ∈ newMsgs, s ≠ "" := by
    intro s hs h
    exact hne (h ▸ List.mem_of_mem_filter hs)
  by_cases hlt : idx < newMsgs.length
  · have hs : newMsgs.get? idx = some (newMsgs.get ⟨idx, hlt⟩) := List.get?_eq_get hlt
    set s := newMsgs.get ⟨idx, hlt⟩ with hsdef
    have hsmem : s ∈ newMsgs := List.get?_mem hs
    have hsne : s ≠ "" := hmemne s hsmem
    refine ⟨rfl, ?_, ?_, ?_, ?_⟩
    · simp only [hs, jsOr, hsne, if_false]
      simp [hsne]
    · intro s' hs'
      simp only [hs, jsOr] at hs'
      rw [if_neg hsne] at hs'
      exact (Option.some.inj hs') ▸ hsmem
    · intro _
      simp only [hs, jsOr]
      rw [if_neg hsne]
    · intro hle
      omega
  · have hnone : newMsgs.get? idx = none := List.get?_eq_none.mpr (by omega)
    obtain ⟨b0, hb0⟩ : ∃ b0, newMsgs.get? 0 = some b0 := by
      match newMsgs, hnonempty with
      | c :: cs, _ => exact ⟨c, rfl⟩
    have hb0mem : b0 ∈ newMsgs := List.get?_mem hb0
    have hb0ne : b0 ≠ "" := hmemne b0 hb0mem
    refine ⟨rfl, ?_, ?_, ?_, ?_⟩
    · simp only [hnone, hb0, jsOr]
      rw [if_neg hb0ne]
      simp
    · intro s' hs'
      simp only [hnone, hb0, jsOr] at hs'
      rw [if_neg hb0ne] at hs'
      exact (Option.some.inj hs') ▸ hb0mem
    · intro h
      omega
    · intro _
      simp only [hnone, hb0, jsOr]
      rw [if_neg hb0ne]

/-- C6, witness: two siblings `["a", "b"]` with `select = "a"`; deleting
`"a"` re-points `select` to `"b"` (the second sibling), not null. -/
theorem c6_delete_reselect_witness :
    (getRec (handleItemDelete []
        [("p", { messages := some ["a", "b"], select := some "a" }), ("a", {}), ("b", {})]
        "p" "a").1 "p").select = some "b" ∧
    (getRec (handleItemDelete []
        [("p", { messages := some ["a", "b"], select := some "a" }), ("a", {}), ("b", {})]
        "p" "a").1 "p").messages = some ["b"] := by
  obtain ⟨hm, _, _, h4, _⟩ := c6_delete_reselect []
    [("p", { messages := some ["a", "b"], select := some "a" }), ("a", {}), ("b", {})]
    "p" "a" ["a", "b"] (by decide) (by decide) (by decide) (by decide) (by decide)
    (fun hr => absurd (reach_of_no_children (by decide) hr) (by decide))
  constructor
  · rw [h4 (by decide)]
    decide
  · rw [hm]
    decide

/-- C5, counterexample: cancel after one chunk of `["a", "b"]` — the task
settles through the done path, but the result atom is set to `""` (the
`catch` handler resolves with the empty string), NOT the accumulated text
`"a"` that had streamed, refuting "the result atom holds the accumulated
text as final". -/
theorem c5_counterexample :
    (runNewMessageCompletion [] [] (some "m") "#n" (some "k") ["a", "b"] (some 1)).resultTrace
        = ["a"] ∧
    (runNewMessageCompletion [] [] (some "m") "#n" (some "k") ["a", "b"] (some 1)).onErrorRan
        = false ∧
    (runNewMessageCompletion [] [] (some "m") "#n" (some "k") ["a", "b"] (some 1)).resultFinal
        = "" ∧
    (runNewMessageCompletion [] [] (some "m") "#n" (some "k") ["a", "b"] (some 1)).resultFinal
        ≠ "a" := by
  refine ⟨by decide, by decide, by decide, by decide⟩

/-- C5, amended: cancelling an in-flight task settles it through the done
path (not `onError`): the promise resolves with the EMPTY string — so the
result atom ends as `""`, not the accumulated text — while the node is
untouched by the settle step (`stFinal = stStream`), its `meta.error`
stays unset (the meta holds only the model), the content the stream had
accumulated is preserved, and the task is removed from the registry. -/
theorem c5_cancel_soft (st : Store) (reg : Registry) (model : Option String)
    (msgId k : String) (chunks : List String) (n : Nat) (hn : n < chunks.length) :
    (runNewMessageCompletion st reg model msgId (some k) chunks (some n)).onErrorRan = false ∧
    (runNewMessageCompletion st reg model msgId (some k) chunks (some n)).resultFinal = "" ∧
    (runNewMessageCompletion st reg model msgId (some k) chunks (some n)).stFinal =
      (runNewMessageCompletion st reg model msgId (some k) chunks (some n)).stStream ∧
    (getRec (runNewMessageCompletion st reg model msgId (some k) chunks (some n)).stFinal
        msgId).meta = some { model := model, error := none } ∧
    (runNewMessageCompletion st reg model msgId (some k) chunks (some n)).regFinal
      = removeTask (newTaskStore reg msgId) msgId := by
  have hcc : chatCompletionRun (some k) chunks (some n) =
      { texts := accTexts "" (chunks.take n), outcome := Except.ok "", networkOpened := true } := by
    simp [chatCompletionRun, hn]
  have hmeta : (getRec (streamFold
      (setRec st msgId { getRec st msgId with meta := some { model := model } }) msgId
      { getRec st msgId with meta := some { model := model } }
      (accTexts "" (chunks.take n))) msgId).meta = some { model := model, error := none } := by
    rw [streamFold_getRec_self]
    rcases hgl : (accTexts "" (chunks.take n)).getLast? with _ | t
    · simp [getRec_setRec_self]
    · simp
  refine ⟨?_, ?_, ?_, ?_, ?_⟩ <;>
    simp [runNewMessageCompletion, runTaskAsync, hcc, hmeta]

/-- C5, witness for the amended theorem: the concrete cancelled run of
`c5_counterexample`. -/
theorem c5_cancel_soft_witness :
    (runNewMessageCompletion [] [] (some "m") "#n" (some "k") ["a", "b"] (some 1)).onErrorRan
        = false ∧
    (runNewMessageCompletion [] [] (some "m") "#n" (some "k") ["a", "b"] (some 1)).resultFinal
        = "" ∧
    (runNewMessageCompletion [] [] (some "m") "#n" (some "k") ["a", "b"] (some 1)).stFinal =
      (runNewMessageCompletion [] [] (some "m") "#n" (some "k") ["a", "b"] (some 1)).stStream ∧
    (getRec (runNewMessageCompletion [] [] (some "m") "#n" (some "k") ["a", "b"]
        (some 1)).stFinal "#n").meta = some { model := some "m", error := none } ∧
    (runNewMessageCompletion [] [] (some "m") "#n" (some "k") ["a", "b"] (some 1)).regFinal
      = removeTask (newTaskStore [] "#n") "#n" :=
  c5_cancel_soft [] [] (some "m") "#n" "k" ["a", "b"] 1 (by decide)

/-- C8, counterexample: with no API key, `newTask` still `storeTask`s the
task synchronously — the rejection callback only runs afterwards — so a
task for the id IS observable in the registry's task list, refuting "no
task for that id is ever observable". -/
theorem c8_counterexample :
    "#n" ∈ (runNewMessageCompletion [] [] none "#n" none [] none).regSync ∧
    (runNewMessageCompletion [] [] none "#n" none [] none).networkOpened = false ∧
    "#n" ∉ (runNewMessageCompletion [] [] none "#n" none [] none).regFinal := by
  refine ⟨by decide, by decide, by decide⟩

/-- C8, amended: when the API key is absent, starting a generation fails
as a precondition failure before any network request is issued (the
client is never constructed) and no text ever streams; the failure path
runs (`onError`, recording the error in the node's `meta.error`) and
removes the task — but the task IS transiently registered: `storeTask`
appends it synchronously and the rejection removes it only when the
settle callback runs. -/
theorem c8_missing_key (st : Store) (reg : Registry) (model : Option String)
    (msgId : String) (chunks : List String) (abortAfter : Option Nat) :
    (runNewMessageCompletion st reg model msgId none chunks abortAfter).networkOpened = false ∧
    (runNewMessageCompletion st reg model msgId none chunks abortAfter).onErrorRan = true ∧
    (runNewMessageCompletion st reg model msgId none chunks abortAfter).resultTrace = [] ∧
    msgId ∈ (runNewMessageCompletion st reg model msgId none chunks abortAfter).regSync ∧
    (runNewMessageCompletion st reg model msgId none chunks abortAfter).regFinal
      = removeTask (newTaskStore reg msgId) msgId ∧
    (getRec (runNewMessageCompletion st reg model msgId none chunks abortAfter).stFinal
        msgId).meta = some { model := model, error := some "API key is required" } := by
  refine ⟨?_, ?_, ?_, ?_, ?_, ?_⟩ <;>
    simp [runNewMessageCompletion, runTaskAsync, chatCompletionRun, streamFold,
      newTaskStore, getRec_setRec_self]

/-- C7, counterexample: run the spec's scenario (empty root `#0000`,
`newBranch` with content `"hi"` and `addAnswer`, stream settles with
accumulated text `"hello"`): the assistant child's content is `"hello "`
— the content writer appends `text + " "`, a trailing space — so it does
NOT equal exactly `"hello"`. -/
theorem c7_counterexample :
    (getRec (runTaskAsync
        (fixChain (newBranchFull [] [] (some "m") "#0000" "#u1" "#a1" (some "hi") false true).1
          ["#u1", "#0000"])
        (newBranchFull [] [] (some "m") "#0000" "#u1" "#a1" (some "hi") false true).2
        "#a1"
        (getRec (newBranchFull [] [] (some "m") "#0000" "#u1" "#a1" (some "hi") false true).1
          "#a1")
        (some "k") ["hel", "lo"] none).stFinal "#a1").content = some "hello " ∧
    (getRec (runTaskAsync
        (fixChain (newBranchFull [] [] (some "m") "#0000" "#u1" "#a1" (some "hi") false true).1
          ["#u1", "#0000"])
        (newBranchFull [] [] (some "m") "#0000" "#u1" "#a1" (some "hi") false true).2
        "#a1"
        (getRec (newBranchFull [] [] (some "m") "#0000" "#u1" "#a1" (some "hi") false true).1
          "#a1")
        (some "k") ["hel", "lo"] none).stFinal "#a1").content ≠ some "hello" := by
  refine ⟨by decide, by decide⟩

/-- C7, amended: the scenario of the spec, with the one correction that
the assistant child's content ends as `"hello "` (the streamed text plus
the trailing space the content writer appends).  From the empty root
`#0000`, `newBranch(content: "hi", addAnswer: true)` creates one user
child `#u1` with content `"hi"` whose only child is an assistant
placeholder `#a1` (no content) with an active task; each streamed chunk
writes the cumulative text to the result atom (`["hel", "hello"]`); the
task settles through the done path with final text `"hello"`, the
registry drops the task, and after the weight cascade the user node's
weight is 1 and the root's weight is 2.  (`runTaskAsync` is passed the
record of `#a1` at branch time, which is exactly the `msg` the source
captures when it starts the task.) -/
theorem c7_scenario :
    (getRec (newBranchFull [] [] (some "m") "#0000" "#u1" "#a1" (some "hi") false true).1
        "#u1").content = some "hi" ∧
    (getRec (newBranchFull [] [] (some "m") "#0000" "#u1" "#a1" (some "hi") false true).1
        "#u1").role = some Role.user ∧
    (getRec (newBranchFull [] [] (some "m") "#0000" "#u1" "#a1" (some "hi") false true).1
        "#u1").messages = some ["#a1"] ∧
    (getRec (newBranchFull [] [] (some "m") "#0000" "#u1" "#a1" (some "hi") false true).1
        "#0000").messages = some ["#u1"] ∧
    (getRec (newBranchFull [] [] (some "m") "#0000" "#u1" "#a1" (some "hi") false true).1
        "#a1").role = some Role.assistant ∧
    (getRec (newBranchFull [] [] (some "m") "#0000" "#u1" "#a1" (some "hi") false true).1
        "#a1").content = none ∧
    "#a1" ∈ (newBranchFull [] [] (some "m") "#0000" "#u1" "#a1" (some "hi") false true).2 ∧
    (runTaskAsync
        (fixChain (newBranchFull [] [] (some "m") "#0000" "#u1" "#a1" (some "hi") false true).1
          ["#u1", "#0000"])
        (newBranchFull [] [] (some "m") "#0000" "#u1" "#a1" (some "hi") false true).2
        "#a1"
        (getRec (newBranchFull [] [] (some "m") "#0000" "#u1" "#a1" (some "hi") false true).1
          "#a1")
        (some "k") ["hel", "lo"] none).resultTrace = ["hel", "hello"] ∧
    (runTaskAsync
        (fixChain (newBranchFull [] [] (some "m") "#0000" "#u1" "#a1" (some "hi") false true).1
          ["#u1", "#0000"])
        (newBranchFull [] [] (some "m") "#0000" "#u1" "#a1" (some "hi") false true).2
        "#a1"
        (getRec (newBranchFull [] [] (some "m") "#0000" "#u1" "#a1" (some "hi") false true).1
          "#a1")
        (some "k") ["hel", "lo"] none).onErrorRan = false ∧
    (runTaskAsync
        (fixChain (newBranchFull [] [] (some "m") "#0000" "#u1" "#a1" (some "hi") false true).1
          ["#u1", "#0000"])
        (newBranchFull [] [] (some "m") "#0000" "#u1" "#a1" (some "hi") false true).2
        "#a1"
        (getRec (newBranchFull [] [] (some "m") "#0000" "#u1" "#a1" (some "hi") false true).1
          "#a1")
        (some "k") ["hel", "lo"] none).resultFinal = "hello" ∧
    (runTaskAsync
        (fixChain (newBranchFull [] [] (some "m") "#0000" "#u1" "#a1" (some "hi") false true).1
          ["#u1", "#0000"])
        (newBranchFull [] [] (some "m") "#0000" "#u1" "#a1" (some "hi") false true).2
        "#a1"
        (getRec (newBranchFull [] [] (some "m") "#0000" "#u1" "#a1" (some "hi") false true).1
          "#a1")
        (some "k") ["hel", "lo"] none).regFinal = [] ∧
    (getRec (runTaskAsync
        (fixChain (newBranchFull [] [] (some "m") "#0000" "#u1" "#a1" (some "hi") false true).1
          ["#u1", "#0000"])
        (newBranchFull [] [] (some "m") "#0000" "#u1" "#a1" (some "hi") false true).2
        "#a1"
        (getRec (newBranchFull [] [] (some "m") "#0000" "#u1" "#a1" (some "hi") false true).1
          "#a1")
        (some "k") ["hel", "lo"] none).stFinal "#a1").content = some "hello " ∧
    weightOf (runTaskAsync
        (fixChain (newBranchFull [] [] (some "m") "#0000" "#u1" "#a1" (some "hi") false true).1
          ["#u1", "#0000"])
        (newBranchFull [] [] (some "m") "#0000" "#u1" "#a1" (some "hi") false true).2
        "#a1"
        (getRec (newBranchFull [] [] (some "m") "#0000" "#u1" "#a1" (some "hi") false true).1
          "#a1")
        (some "k") ["hel", "lo"] none).stFinal "#u1" = 1 ∧
    weightOf (runTaskAsync
        (fixChain (newBranchFull [] [] (some "m") "#0000" "#u1" "#a1" (some "hi") false true).1
          ["#u1", "#0000"])
        (newBranchFull [] [] (some "m") "#0000" "#u1" "#a1" (some "hi") false true).2
        "#a1"
        (getRec (newBranchFull [] [] (some "m") "#0000" "#u1" "#a1" (some "hi") false true).1
          "#a1")
        (some "k") ["hel", "lo"] none).stFinal "#0000" = 2 := by
  refine ⟨by decide, by decide, by decide, by decide, by decide, by decide, by decide,
    by decide, by decide, by decide, by decide, by decide, by decide, by decide⟩

/-- C9: `editSelect` overwrites only the selected child's `content` field
in place — the child's `children` (`messages`) and `select` keep their
prior values, every other record (in particular the parent's) is
unchanged, and no generation task is started (the registry is untouched;
only the `branch` mutation can append tasks). -/
theorem c9_edit_frame (tasks : List String) (st : Store) (reg : Registry)
    (p content k : String) (selMsg : MsgRec)
    (hfind : findSelected st p = some selMsg)
    (hid : selMsg.id = some k)
    (hkp : k ≠ p) :
    getRec (applyMutation tasks (Mutation.edit p content) (st, reg)).1 k
      = { selMsg with content := some content } ∧
    (getRec (applyMutation tasks (Mutation.edit p content) (st, reg)).1 k).messages
      = selMsg.messages ∧
    (getRec (applyMutation tasks (Mutation.edit p content) (st, reg)).1 k).select
      = selMsg.select ∧
    (∀ y, y ≠ k → getRec (applyMutation tasks (Mutation.edit p content) (st, reg)).1 y
      = getRec st y) ∧
    getRec (applyMutation tasks (Mutation.edit p content) (st, reg)).1 p = getRec st p ∧
    (applyMutation tasks (Mutation.edit p content) (st, reg)).2 = reg := by
  have happ : (applyMutation tasks (Mutation.edit p content) (st, reg)).1
      = editSelect st p content := rfl
  have hes : editSelect st p content
      = setRec st k { selMsg with content := some content } := by
    unfold editSelect
    rw [hfind]
    show setRec st (selMsg.id.getD "undefined") { selMsg with content := some content } = _
    rw [hid]
    rfl
  refine ⟨?_, ?_, ?_, ?_, ?_, rfl⟩
  · rw [happ, hes, getRec_setRec_self]
  · rw [happ, hes, getRec_setRec_self]
  · rw [happ, hes, getRec_setRec_self]
  · intro y hy
    rw [happ, hes, getRec_setRec_ne _ _ _ hy]
  · rw [happ, hes, getRec_setRec_ne _ _ _ (Ne.symm hkp)]

/-- C9, witness: a parent `p` whose selected child `c` (with children
`["d"]` and `select = "d"`) gets its content overwritten; everything else
survives untouched. -/
theorem c9_edit_frame_witness :
    getRec (applyMutation [] (Mutation.edit "p" "new")
        ([("p", { messages := some ["c"], select := some "c" }),
          ("c", { content := some "old", messages := some ["d"],
                  select := some "d", id := some "c" })], [])).1 "c"
      = { content := some "new", messages := some ["d"],
          select := some "d", id := some "c" } ∧
    (getRec (applyMutation [] (Mutation.edit "p" "new")
        ([("p", { messages := some ["c"], select := some "c" }),
          ("c", { content := some "old", messages := some ["d"],
                  select := some "d", id := some "c" })], [])).1 "c").messages
      = ({ content := some "old", messages := some ["d"],
           select := some "d", id := some "c" } : MsgRec).messages ∧
    (getRec (applyMutation [] (Mutation.edit "p" "new")
        ([("p", { messages := some ["c"], select := some "c" }),
          ("c", { content := some "old", messages := some ["d"],
                  select := some "d", id := some "c" })], [])).1 "c").select
      = ({ content := some "old", messages := some ["d"],
           select := some "d", id := some "c" } : MsgRec).select ∧
    (∀ y, y ≠ "c" → getRec (applyMutation [] (Mutation.edit "p" "new")
        ([("p", { messages := some ["c"], select := some "c" }),
          ("c", { content := some "old", messages := some ["d"],
                  select := some "d", id := some "c" })], [])).1 y
      = getRec [("p", { messages := some ["c"], select := some "c" }),
          ("c", { content := some "old", messages := some ["d"],
                  select := some "d", id := some "c" })] y) ∧
    getRec (applyMutation [] (Mutation.edit "p" "new")
        ([("p", { messages := some ["c"], select := some "c" }),
          ("c", { content := some "old", messages := some ["d"],
                  select := some "d", id := some "c" })], [])).1 "p"
      = getRec [("p", { messages := some ["c"], select := some "c" }),
          ("c", { content := some "old", messages := some ["d"],
                  select := some "d", id := some "c" })] "p" ∧
    (applyMutation [] (Mutation.edit "p" "new")
        ([("p", { messages := some ["c"], select := some "c" }),
          ("c", { content := some "old", messages := some ["d"],
                  select := some "d", id := some "c" })], [])).2 = [] :=
  c9_edit_frame [] _ [] "p" "new" "c"
    { content := some "old", messages := some ["d"], select := some "d", id := some "c" }
    (by decide) (by decide) (by decide)

/-! ## Select-invariant preservation lemmas -/

theorem selInv_setRec {st : Store} {k : String} {v : MsgRec}
    (hs : SelInv st) (hv : selOKrec v) : SelInv (setRec st k v) := by
  intro y s hsel
  by_cases hyk : y = k
  · subst hyk
    rw [getRec_setRec_self] at hsel ⊢
    exact hv s hsel
  · rw [getRec_setRec_ne _ _ _ hyk] at hsel ⊢
    exact hs y s hsel

theorem selInv_click {st : Store} {p c : String}
    (hs : SelInv st) (hc : c ∈ childrenOf st p ∨ c = "") :
    SelInv (handleItemClick st p c) := by
  unfold handleItemClick
  apply selInv_setRec hs
  intro s hsel
  simp only at hsel
  rw [← Option.some.inj hsel]
  rcases hc with hc | hc
  · exact Or.inr hc
  · exact Or.inl hc

theorem selInv_edit {st : Store} {p content : String}
    (hs : SelInv st) : SelInv (editSelect st p content) := by
  unfold editSelect
  rcases hf : findSelected st p with _ | m'
  · exact hs
  · have hmem : m' ∈ ((getRec st p).messages.getD []).map (getRec st) := by
      unfold findSelected at hf
      exact List.mem_of_find?_eq_some hf
    obtain ⟨c0, _, hc0⟩ := List.mem_map.mp hmem
    apply selInv_setRec hs
    intro s hsel
    simp only at hsel
    have := hs c0 s (by rw [hc0]; exact hsel)
    rcases this with h | h
    · exact Or.inl h
    · refine Or.inr ?_
      show s ∈ m'.messages.getD []
      rw [← hc0]
      exact h

theorem jsOr_get_mem {l : List String} {i j : Nat} {s : String}
    (h : jsOr (l.get? i) (jsOr (l.get? j) none) = some s) : s ∈ l := by
  have hj : jsOr (l.get? j) none = some s → s ∈ l := by
    intro h2
    rcases h2j : l.get? j with _ | x
    · rw [h2j] at h2
      simp [jsOr] at h2
    · rw [h2j] at h2
      simp only [jsOr] at h2
      by_cases hx : x = ""
      · simp [hx] at h2
      · rw [if_neg hx] at h2
        rw [← Option.some.inj h2]
        exact List.get?_mem h2j
  rcases h1 : l.get? i with _ | x
  · rw [h1] at h
    simp only [jsOr] at h
    exact hj h
  · rw [h1] at h
    simp only [jsOr] at h
    by_cases hx : x = ""
    · rw [if_pos hx] at h
      exact hj h
    · rw [if_neg hx] at h
      rw [← Option.some.inj h]
      exact List.get?_mem h1

theorem selInv_parentUpdate {st : Store} {p msgId : String}
    (hs : SelInv st) : SelInv (deleteParentUpdate st p msgId) := by
  unfold deleteParentUpdate
  apply selInv_setRec hs
  intro s hsel
  simp only at hsel
  by_cases hm : (getRec st p).select == some msgId
  · rw [if_pos hm] at hsel
    exact Or.inr (jsOr_get_mem hsel)
  · rw [if_neg hm] at hsel
    rcases hs p s hsel with h | h
    · exact Or.inl h
    · refine Or.inr (List.mem_filter.mpr ⟨h, ?_⟩)
      have hne : s ≠ msgId := by
        intro he
        subst he
        rw [hsel] at hm
        simp at hm
      simp [hne]

theorem selInv_delete {tasks : List String} {st : Store} {p msgId : String}
    (hs : SelInv st) : SelInv (handleItemDelete tasks st p msgId).1 := by
  intro y s hsel
  unfold handleItemDelete at hsel ⊢
  obtain ⟨q1, _, _, _, _⟩ := recDelW_spec tasks (deleteParentUpdate st p msgId).length
    (deleteParentUpdate st p msgId) (Nat.le_refl _) [msgId] []
  rcases q1 y with h | h
  · rw [getRec_empty_of_none h] at hsel
    cases hsel
  · have hg : getRec (recDelW tasks (deleteParentUpdate st p msgId) [msgId] []).1 y
        = getRec (deleteParentUpdate st p msgId) y := by
      unfold getRec
      rw [h]
    rw [hg] at hsel ⊢
    exact selInv_parentUpdate hs y s hsel

theorem selOKrec_none {m : MsgRec} (h : m.select = none) : selOKrec m := by
  intro s hsel
  rw [h] at hsel
  cases hsel

theorem selInv_branch {st : Store} {reg : Registry} {model : Option String}
    {p a b : String} {c : Option String} {fC aA : Bool}
    (hs : SelInv st) : SelInv (newBranchFull st reg model p a b c fC aA).1 := by
  have hnewPm : selOKrec { getRec st p with
      messages := some (a :: (getRec st p).messages.getD []), select := some a } := by
    intro s hsel
    simp only at hsel
    rw [← Option.some.inj hsel]
    exact Or.inr (List.mem_cons_self _ _)
  have hmsg1 : selOKrec
      { id := some a, role := some (branchRole st p), content := c,
        messages := some [b], select := some b } := by
    intro s hsel
    simp only at hsel
    rw [← Option.some.inj hsel]
    exact Or.inr (List.mem_cons_self _ _)
  have hmsg0 : selOKrec { id := some a, role := some (branchRole st p), content := c } :=
    selOKrec_none rfl
  by_cases hba : branchAnswering st p c aA = true
  · have haA : aA = true := by
      unfold branchAnswering at hba
      exact (Bool.and_eq_true_iff.mp (Bool.and_eq_true_iff.mp hba).1).1
    subst haA
    have hg2 : (fC && !true &&
        (({ id := some a, role := some (branchRole st p), content := c,
            messages := some [b], select := some b } : MsgRec).role
          == some Role.assistant)) = false := by
      simp
    simp only [newBranchFull, if_pos hba, hg2, Bool.false_eq_true, if_false]
    exact selInv_setRec (selInv_setRec (selInv_setRec (selInv_setRec hs
      (selOKrec_none rfl)) (by rw [getRec_setRec_self]; exact selOKrec_none rfl)) hmsg1) hnewPm
  · by_cases hfc : (fC && !aA &&
        (({ id := some a, role := some (branchRole st p), content := c } : MsgRec).role
          == some Role.assistant)) = true
    · simp only [newBranchFull, if_neg hba, if_pos hfc]
      exact selInv_setRec (selInv_setRec (selInv_setRec hs hmsg0)
        (by rw [getRec_setRec_self]; exact selOKrec_none rfl)) hnewPm
    · simp only [newBranchFull, if_neg hba, if_neg hfc]
      exact selInv_setRec (selInv_setRec hs hmsg0) hnewPm

/-- C4, counterexample: starting from a store satisfying the strict
invariant (`select = "a"` names a child), the selection mutation invoked
with the deselect argument `""` — exactly what the New Chat action does
through `deselectMsgRef` — leaves `select` present and non-null (`""` is
a string, not null) yet naming no member of `children`: selection
performs no membership validation and does not re-establish the
invariant. -/
theorem c4_counterexample :
    (getRec [("r", { messages := some ["a"], select := some "a" })] "r").select = some "a" ∧
    "a" ∈ childrenOf [("r", { messages := some ["a"], select := some "a" })] "r" ∧
    (getRec (applyMutation [] (Mutation.click "r" "")
        ([("r", { messages := some ["a"], select := some "a" })], [])).1 "r").select
      = some "" ∧
    "" ∉ childrenOf (applyMutation [] (Mutation.click "r" "")
        ([("r", { messages := some ["a"], select := some "a" })], [])).1 "r" := by
  refine ⟨by decide, by decide, by decide, by decide⟩

/-- C4, amended: for every node, a `select` that is present is either a
member of that node's `children` or the empty-string deselect sentinel
(which names no child and renders as "none selected"); branch creation,
deletion and content edit re-establish this unconditionally, while
selection — which writes its argument without validation — preserves it
exactly when the caller passes a current child id or `""` (the only
arguments the component ever passes). -/
theorem c4_select_invariant (tasks : List String) (m : Mutation) (st : Store)
    (reg : Registry) (hs : SelInv st) (hm : selMutOK m st) :
    SelInv (applyMutation tasks m (st, reg)).1 := by
  cases m with
  | click p c => exact selInv_click hs hm
  | edit p content => exact selInv_edit hs
  | del p msgId => exact selInv_delete hs
  | branch model p a b c fC aA => exact selInv_branch hs

/-- C4, witness for the amended theorem: clicking a current child keeps
the invariant on a concrete two-child store. -/
theorem c4_select_invariant_witness :
    SelInv (applyMutation [] (Mutation.click "r" "b")
      ([("r", { messages := some ["a", "b"], select := some "a" }), ("a", {}), ("b", {})],
        [])).1 :=
  c4_select_invariant [] (Mutation.click "r" "b")
    [("r", { messages := some ["a", "b"], select := some "a" }), ("a", {}), ("b", {})] []
    (selInv_of_selInvB (by decide)) (Or.inl (by decide))

/-! ## Weight propagation -/

theorem childrenOf_setRec_self (st : Store) (k : String) (v : MsgRec) :
    childrenOf (setRec st k v) k = v.messages.getD [] := by
  simp [childrenOf, getRec_setRec_self]

theorem childrenOf_setRec_ne (st : Store) (k : String) (v : MsgRec) {y : String}
    (h : y ≠ k) : childrenOf (setRec st k v) y = childrenOf st y := by
  simp [childrenOf, getRec_setRec_ne _ _ _ h]

theorem weightOf_setRec_self (st : Store) (k : String) (v : MsgRec) :
    weightOf (setRec st k v) k = v.weight.getD 0 := by
  simp [weightOf, getRec_setRec_self]

theorem weightOf_setRec_ne (st : Store) (k : String) (v : MsgRec) {y : String}
    (h : y ≠ k) : weightOf (setRec st k v) y = weightOf st y := by
  simp [weightOf, getRec_setRec_ne _ _ _ h]

theorem childrenOf_fixStep (st : Store) (c y : String) :
    childrenOf (fixStep st c) y = childrenOf st y := by
  by_cases hyc : y = c
  · subst hyc
    unfold fixStep
    rw [childrenOf_setRec_self]
    rfl
  · unfold fixStep
    exact childrenOf_setRec_ne _ _ _ hyc

theorem weightOf_fixStep_self (st : Store) (c : String) :
    weightOf (fixStep st c) c = computeWeight st c := by
  unfold fixStep
  rw [weightOf_setRec_self]
  rfl

theorem weightOf_fixStep_ne (st : Store) (c : String) {y : String} (h : y ≠ c) :
    weightOf (fixStep st c) y = weightOf st y := by
  unfold fixStep
  exact weightOf_setRec_ne _ _ _ h

theorem mem_keys_of_lookup {st : Store} {y : String} (h : lookupRec st y ≠ none) :
    y ∈ keysOf st := by
  rcases Option.ne_none_iff_exists'.mp h with ⟨m, hm⟩
  rcases Option.map_eq_some'.mp hm with ⟨q, hfind, _⟩
  have hqmem := List.mem_of_find?_eq_some hfind
  have hq := List.find?_some hfind
  have hqy : q.1 = y := by simpa using hq
  exact hqy ▸ List.mem_map_of_mem (·.1) hqmem

theorem mem_keys_of_child {st : Store} {y ch : String} (h : ch ∈ childrenOf st y) :
    y ∈ keysOf st := by
  apply mem_keys_of_lookup
  intro hn
  rw [childrenOf_of_none hn] at h
  cases h

theorem weightOf_eq_of_getRec {st st' : Store} {y : String}
    (h : getRec st' y = getRec st y) : weightOf st' y = weightOf st y := by
  unfold weightOf
  rw [h]

/-- A node whose record did not change and whose children kept their
weights still satisfies the local weight equation. -/
theorem h4_unchanged {st st' : Store} {y : String} (hwinv : WInv st)
    (hrec : getRec st' y = getRec st y)
    (hch : ∀ ch ∈ childrenOf st y, weightOf st' ch = weightOf st ch) :
    weightOf st' y = computeWeight st' y := by
  have h2 : childrenOf st' y = childrenOf st y := by
    unfold childrenOf
    rw [hrec]
  rw [weightOf_eq_of_getRec hrec, hwinv y]
  exact (computeWeight_congr h2 hch).symm

/-- The unbounded form of `chainLinked`. -/
theorem chainLinked_full {st : Store} {chain : List String} (h : chainLinked st chain) :
    ∀ i c, chain.get? i = some c → ∀ y, c ∈ childrenOf st y → chain.get? (i + 1) = some y := by
  intro i c hc y hcy
  by_cases hyk : y ∈ keysOf st
  · obtain ⟨hi, hget⟩ := List.get?_eq_some.mp hc
    have hgd : chain.getD i "" = c := by
      rw [List.getD_eq_getElem?_getD, ← List.get?_eq_getElem?, hc]
      rfl
    exact h i (List.mem_range.mpr hi) y hyk (hgd ▸ hcy)
  · rw [childrenOf_of_none (lookupRec_of_not_mem_keys hyk)] at hcy
    cases hcy

/-- Correctness of the bottom-up weight cascade: if every broken node is
on the chain, each chain node's unique parent is the next chain element
and the root is nobody's child, then after the cascade every node
satisfies the weight equation. -/
theorem fixChain_winv : ∀ (chain : List String) (st : Store),
    chain.Nodup →
    (∀ i c, chain.get? i = some c → ∀ y, c ∈ childrenOf st y → chain.get? (i + 1) = some y) →
    (∀ y, y ∉ chain → weightOf st y = computeWeight st y) →
    WInv (fixChain st chain) := by
  intro chain
  induction chain with
  | nil =>
    intro st _ _ h4
    exact fun y => h4 y (by simp)
  | cons c0 rest ih =>
    intro st h0 h12 h4
    show WInv (fixChain (fixStep st c0) rest)
    have hc0rest : c0 ∉ rest := (List.nodup_cons.mp h0).1
    apply ih (fixStep st c0) (List.nodup_cons.mp h0).2
    · intro i c hc y hcy
      have hcy' : c ∈ childrenOf st y := by
        rw [childrenOf_fixStep] at hcy
        exact hcy
      have := h12 (i + 1) c (by simpa using hc) y hcy'
      simpa using this
    · intro y hy
      by_cases hyc0 : y = c0
      · subst hyc0
        rw [weightOf_fixStep_self]
        refine (computeWeight_congr (childrenOf_fixStep st y y) ?_).symm
        intro ch hch
        have hchy : ch ≠ y := by
          intro he
          subst he
          have := h12 0 ch rfl ch hch
          simp only [List.get?_cons_succ] at this
          exact hc0rest (List.get?_mem this)
        exact weightOf_fixStep_ne _ _ hchy
      · have hynotchain : y ∉ c0 :: rest := by
          simp [hyc0, hy]
        rw [weightOf_fixStep_ne _ _ hyc0, h4 y hynotchain]
        refine computeWeight_congr (childrenOf_fixStep st c0 y).symm ?_
        intro ch hch
        have hch' : ch ∈ childrenOf st y := by
          rw [childrenOf_fixStep] at hch
          exact hch
        have hchc0 : ch ≠ c0 := by
          intro he
          subst he
          have := h12 0 ch rfl y hch'
          simp only [List.get?_cons_succ] at this
          exact hy (List.get?_mem this)
        exact (weightOf_fixStep_ne _ _ hchc0).symm

theorem winv_preserved {st st' : Store} (hw : WInv st)
    (hch : ∀ y, childrenOf st' y = childrenOf st y)
    (hwt : ∀ y, weightOf st' y = weightOf st y) : WInv st' := by
  intro y
  rw [hwt y, hw y]
  exact (computeWeight_congr (hch y) (fun c _ => hwt c)).symm

/-- Selection changes no `messages` field and no `weight` field, so it
preserves the weight invariant outright (no cascade needed). -/
theorem winv_click {st : Store} {p c : String} (hw : WInv st) :
    WInv (handleItemClick st p c) := by
  unfold handleItemClick
  apply winv_preserved hw
  · intro y
    by_cases hyp : y = p
    · subst hyp
      rw [childrenOf_setRec_self]
      rfl
    · exact childrenOf_setRec_ne _ _ _ hyp
  · intro y
    by_cases hyp : y = p
    · subst hyp
      rw [weightOf_setRec_self]
      rfl
    · exact weightOf_setRec_ne _ _ _ hyp

/-- A content edit rewrites the selected child's record in place (same
`messages`, same `weight`), so it preserves the weight invariant outright
— provided the child records carry their own storage key in `id`, so the
write lands back on the same key. -/
theorem winv_edit {st : Store} {p : String} {content : String} (hw : WInv st)
    (hIdKeys : ∀ c ∈ (getRec st p).messages.getD [], (getRec st c).id = some c) :
    WInv (editSelect st p content) := by
  unfold editSelect
  rcases hf : findSelected st p with _ | m'
  · exact hw
  · have hmem : m' ∈ ((getRec st p).messages.getD []).map (getRec st) := by
      unfold findSelected at hf
      exact List.mem_of_find?_eq_some hf
    obtain ⟨c0, hc0mem, hc0⟩ := List.mem_map.mp hmem
    have hk : m'.id = some c0 := by
      rw [← hc0]
      exact hIdKeys c0 hc0mem
    have hkey : m'.id.getD "undefined" = c0 := by
      rw [hk]
      rfl
    show WInv (setRec st (m'.id.getD "undefined") { m' with content := some content })
    rw [hkey]
    apply winv_preserved hw
    · intro y
      by_cases hyc : y = c0
      · subst hyc
        rw [childrenOf_setRec_self]
        show m'.messages.getD [] = childrenOf st y
        rw [← hc0]
        rfl
      · exact childrenOf_setRec_ne _ _ _ hyc
    · intro y
      by_cases hyc : y = c0
      · subst hyc
        rw [weightOf_setRec_self]
        show m'.weight.getD 0 = weightOf st y
        rw [← hc0]
        rfl
      · exact weightOf_setRec_ne _ _ _ hyc

/-- Shape of the `newBranch` store writes, answering branch. -/
theorem newBranchFull_store_answer {st : Store} {reg : Registry} {model : Option String}
    {p a b : String} {c : Option String} {fC aA : Bool}
    (hba : branchAnswering st p c aA = true) :
    (newBranchFull st reg model p a b c fC aA).1 =
      setRec (setRec (setRec (setRec st b { id := some b, role := some Role.assistant }) b
          { getRec (setRec st b { id := some b, role := some Role.assistant }) b
              with meta := some { model := model } })
        a { id := some a, role := some (branchRole st p), content := c,
            messages := some [b], select := some b })
        p { getRec st p with
            messages := some (a :: (getRec st p).messages.getD []),
            select := some a } := by
  have haA : aA = true := by
    unfold branchAnswering at hba
    exact (Bool.and_eq_true_iff.mp (Bool.and_eq_true_iff.mp hba).1).1
  subst haA
  have hg2 : (fC && !true &&
      (({ id := some a, role := some (branchRole st p), content := c,
          messages := some [b], select := some b } : MsgRec).role
        == some Role.assistant)) = false := by
    simp
  simp only [newBranchFull, if_pos hba, hg2, Bool.false_eq_true, if_false]

/-- Shape of the `newBranch` store writes, `fillContent` branch. -/
theorem newBranchFull_store_fill {st : Store} {reg : Registry} {model : Option String}
    {p a b : String} {c : Option String} {fC aA : Bool}
    (hba : ¬ branchAnswering st p c aA = true)
    (hfc : (fC && !aA &&
      (({ id := some a, role := some (branchRole st p), content := c } : MsgRec).role
        == some Role.assistant)) = true) :
    (newBranchFull st reg model p a b c fC aA).1 =
      setRec (setRec (setRec st a
          { id := some a, role := some (branchRole st p), content := c })
        a { getRec (setRec st a
            { id := some a, role := some (branchRole st p), content := c }) a
              with meta := some { model := model } })
        p { getRec st p with
            messages := some (a :: (getRec st p).messages.getD []),
            select := some a } := by
  simp only [newBranchFull, if_neg hba, if_pos hfc]

/-- Shape of the `newBranch` store writes, plain branch. -/
theorem newBranchFull_store_plain {st : Store} {reg : Registry} {model : Option String}
    {p a b : String} {c : Option String} {fC aA : Bool}
    (hba : ¬ branchAnswering st p c aA = true)
    (hfc : ¬ (fC && !aA &&
      (({ id := some a, role := some (branchRole st p), content := c } : MsgRec).role
        == some Role.assistant)) = true) :
    (newBranchFull st reg model p a b c fC aA).1 =
      setRec (setRec st a
          { id := some a, role := some (branchRole st p), content := c })
        p { getRec st p with
            messages := some (a :: (getRec st p).messages.getD []),
            select := some a } := by
  simp only [newBranchFull, if_neg hba, if_neg hfc]

/-- After a delete, every off-chain node still satisfies the local weight
equation: deleted nodes hold it trivially, and a survivor off the chain
is not the mutated parent and (by the tree-shape hypothesis `hd`) kept
all its children's records. -/
theorem h4_del {tasks : List String} {st : Store} {p msgId : String}
    {chain : List String} (hw : WInv st) (hp : p ∈ chain)
    (hd : ∀ y ∈ keysOf (handleItemDelete tasks st p msgId).1, y ∉ chain →
        ∀ c ∈ childrenOf (handleItemDelete tasks st p msgId).1 y,
          lookupRec (handleItemDelete tasks st p msgId).1 c = lookupRec st c) :
    ∀ y, y ∉ chain → weightOf (handleItemDelete tasks st p msgId).1 y
      = computeWeight (handleItemDelete tasks st p msgId).1 y := by
  intro y hy
  have hR : (handleItemDelete tasks st p msgId).1
      = (recDelW tasks (deleteParentUpdate st p msgId) [msgId] []).1 := rfl
  obtain ⟨q1, _, _, _, _⟩ := recDelW_spec tasks (deleteParentUpdate st p msgId).length
    (deleteParentUpdate st p msgId) (Nat.le_refl _) [msgId] []
  rcases q1 y with h | h
  · rw [hR, weightOf_of_none h, computeWeight_of_none h]
  · have hyp : y ≠ p := fun he => hy (he ▸ hp)
    have hst1 : lookupRec (deleteParentUpdate st p msgId) y = lookupRec st y := by
      unfold deleteParentUpdate
      exact lookupRec_setRec_ne _ _ _ hyp
    have hrec : getRec (handleItemDelete tasks st p msgId).1 y = getRec st y := by
      unfold getRec
      rw [hR, h, hst1]
    apply h4_unchanged hw hrec
    intro ch hch
    have hchR : ch ∈ childrenOf (handleItemDelete tasks st p msgId).1 y := by
      unfold childrenOf
      rw [hrec]
      exact hch
    have hyk : y ∈ keysOf (handleItemDelete tasks st p msgId).1 :=
      mem_keys_of_child hchR
    have := hd y hyk hy ch hchR
    unfold weightOf getRec
    rw [this]

/-- After a branch creation, every off-chain node still satisfies the
local weight equation: the fresh records are leaves with no weight field,
the parent's write keeps its `weight`, and (by the freshness hypothesis)
no off-chain node lists a fresh id among its children. -/
theorem h4_branch {st : Store} {reg : Registry} {model : Option String}
    {p a b : String} {c : Option String} {fC aA : Bool} {chain : List String}
    (hw : WInv st) (hp : p ∈ chain)
    (hans : branchAnswering st p c aA = true → a ∈ chain)
    (hfresh : ∀ y ∈ keysOf st, a ∉ childrenOf st y ∧ b ∉ childrenOf st y) :
    ∀ y, y ∉ chain → weightOf (newBranchFull st reg model p a b c fC aA).1 y
      = computeWeight (newBranchFull st reg model p a b c fC aA).1 y := by
  intro y hy
  have hyp : y ≠ p := fun he => hy (he ▸ hp)
  by_cases hba : branchAnswering st p c aA = true
  · have hya : y ≠ a := fun he => hy (he ▸ hans hba)
    rw [newBranchFull_store_answer hba]
    by_cases hyb : y = b
    · subst hyb
      have hg : getRec (setRec (setRec (setRec (setRec st y
          { id := some y, role := some Role.assistant }) y
          { getRec (setRec st y { id := some y, role := some Role.assistant }) y
              with meta := some { model := model } })
          a { id := some a, role := some (branchRole st p), content := c,
              messages := some [y], select := some y })
          p { getRec st p with
              messages := some (a :: (getRec st p).messages.getD []),
              select := some a }) y
          = { getRec (setRec st y { id := some y, role := some Role.assistant }) y
              with meta := some { model := model } } := by
        rw [getRec_setRec_ne _ _ _ hyp, getRec_setRec_ne _ _ _ hya, getRec_setRec_self]
      rw [weightOf, computeWeight, childrenOf, hg, getRec_setRec_self]
      rfl
    · have hrec : getRec (setRec (setRec (setRec (setRec st b
          { id := some b, role := some Role.assistant }) b
          { getRec (setRec st b { id := some b, role := some Role.assistant }) b
              with meta := some { model := model } })
          a { id := some a, role := some (branchRole st p), content := c,
              messages := some [b], select := some b })
          p { getRec st p with
              messages := some (a :: (getRec st p).messages.getD []),
              select := some a }) y = getRec st y := by
        rw [getRec_setRec_ne _ _ _ hyp, getRec_setRec_ne _ _ _ hya,
          getRec_setRec_ne _ _ _ hyb, getRec_setRec_ne _ _ _ hyb]
      apply h4_unchanged hw hrec
      intro ch hch
      have hyk : y ∈ keysOf st := mem_keys_of_child hch
      rcases hfresh y hyk with ⟨hfa, hfb⟩
      have hcha : ch ≠ a := fun he => hfa (he ▸ hch)
      have hchb : ch ≠ b := fun he => hfb (he ▸ hch)
      by_cases hchp : ch = p
      · subst hchp
        rw [weightOf_setRec_self]
        rfl
      · have hgch : getRec (setRec (setRec (setRec (setRec st b
            { id := some b, role := some Role.assistant }) b
            { getRec (setRec st b { id := some b, role := some Role.assistant }) b
                with meta := some { model := model } })
            a { id := some a, role := some (branchRole st p), content := c,
                messages := some [b], select := some b })
            p { getRec st p with
                messages := some (a :: (getRec st p).messages.getD []),
                select := some a }) ch = getRec st ch := by
          rw [getRec_setRec_ne _ _ _ hchp, getRec_setRec_ne _ _ _ hcha,
            getRec_setRec_ne _ _ _ hchb, getRec_setRec_ne _ _ _ hchb]
        exact weightOf_eq_of_getRec hgch
  · by_cases hfc : (fC && !aA &&
        (({ id := some a, role := some (branchRole st p), content := c } : MsgRec).role
          == some Role.assistant)) = true
    · rw [newBranchFull_store_fill hba hfc]
      by_cases hya : y = a
      · subst hya
        have hg : getRec (setRec (setRec (setRec st y
            { id := some y, role := some (branchRole st p), content := c })
            y { getRec (setRec st y
                { id := some y, role := some (branchRole st p), content := c }) y
                  with meta := some { model := model } })
            p { getRec st p with
                messages := some (y :: (getRec st p).messages.getD []),
                select := some y }) y
            = { getRec (setRec st y
                { id := some y, role := some (branchRole st p), content := c }) y
                  with meta := some { model := model } } := by
          rw [getRec_setRec_ne _ _ _ hyp, getRec_setRec_self]
        rw [weightOf, computeWeight, childrenOf, hg, getRec_setRec_self]
        rfl
      · have hrec : getRec (setRec (setRec (setRec st a
            { id := some a, role := some (branchRole st p), content := c })
            a { getRec (setRec st a
                { id := some a, role := some (branchRole st p), content := c }) a
                  with meta := some { model := model } })
            p { getRec st p with
                messages := some (a :: (getRec st p).messages.getD []),
                select := some a }) y = getRec st y := by
          rw [getRec_setRec_ne _ _ _ hyp, getRec_setRec_ne _ _ _ hya,
            getRec_setRec_ne _ _ _ hya]
        apply h4_unchanged hw hrec
        intro ch hch
        have hyk : y ∈ keysOf st := mem_keys_of_child hch
        rcases hfresh y hyk with ⟨hfa, _⟩
        have hcha : ch ≠ a := fun he => hfa (he ▸ hch)
        by_cases hchp : ch = p
        · subst hchp
          rw [weightOf_setRec_self]
          rfl
        · have hgch : getRec (setRec (setRec (setRec st a
              { id := some a, role := some (branchRole st p), content := c })
              a { getRec (setRec st a
                  { id := some a, role := some (branchRole st p), content := c }) a
                    with meta := some { model := model } })
              p { getRec st p with
                  messages := some (a :: (getRec st p).messages.getD []),
                  select := some a }) ch = getRec st ch := by
            rw [getRec_setRec_ne _ _ _ hchp, getRec_setRec_ne _ _ _ hcha,
              getRec_setRec_ne _ _ _ hcha]
          exact weightOf_eq_of_getRec hgch
    · rw [newBranchFull_store_plain hba hfc]
      by_cases hya : y = a
      · subst hya
        have hg : getRec (setRec (setRec st y
            { id := some y, role := some (branchRole st p), content := c })
            p { getRec st p with
                messages := some (y :: (getRec st p).messages.getD []),
                select := some y }) y
            = { id := some y, role := some (branchRole st p), content := c } := by
          rw [getRec_setRec_ne _ _ _ hyp, getRec_setRec_self]
        rw [weightOf, computeWeight, childrenOf, hg]
        rfl
      · have hrec : getRec (setRec (setRec st a
            { id := some a, role := some (branchRole st p), content := c })
            p { getRec st p with
                messages := some (a :: (getRec st p).messages.getD []),
                select := some a }) y = getRec st y := by
          rw [getRec_setRec_ne _ _ _ hyp, getRec_setRec_ne _ _ _ hya]
        apply h4_unchanged hw hrec
        intro ch hch
        have hyk : y ∈ keysOf st := mem_keys_of_child hch
        rcases hfresh y hyk with ⟨hfa, _⟩
        have hcha : ch ≠ a := fun he => hfa (he ▸ hch)
        by_cases hchp : ch = p
        · subst hchp
          rw [weightOf_setRec_self]
          rfl
        · have hgch : getRec (setRec (setRec st a
              { id := some a, role := some (branchRole st p), content := c })
              p { getRec st p with
                  messages := some (a :: (getRec st p).messages.getD []),
                  select := some a }) ch = getRec st ch := by
            rw [getRec_setRec_ne _ _ _ hchp, getRec_setRec_ne _ _ _ hcha]
          exact weightOf_eq_of_getRec hgch

/-- C2: for every node, after every mutation completes — i.e. after the
mutation's store writes and the layout-effect weight cascade over the
mounted ancestor chain — the persisted weight of the node equals the sum
over its children `c` of `1 + weight(c)`, and hence `0` when it has no
children (`WInv`; an absent `weight` field reads as `0`, exactly as every
reader in the source applies `|| 0`).  The chain hypotheses say the chain
is the mounted ancestor chain of the mutated node (each chain node's
unique parent is the next element, the root is nobody's child), and
`mutationWeightHyps` packages the per-mutation tree-shape side
conditions. -/
theorem c2_weight_invariant (tasks : List String) (m : Mutation) (st : Store)
    (reg : Registry) (chain : List String)
    (hw : WInvB st)
    (h0 : chain.Nodup)
    (hl : chainLinked (applyMutation tasks m (st, reg)).1 chain)
    (hm : mutationWeightHyps tasks m st chain) :
    WInv (fixChain (applyMutation tasks m (st, reg)).1 chain) := by
  have hwf : WInv st := winv_of_winvB hw
  apply fixChain_winv chain _ h0 (chainLinked_full hl)
  cases m with
  | click p c =>
    intro y _
    exact winv_click hwf y
  | edit p content =>
    intro y _
    exact winv_edit hwf hm y
  | del p msgId =>
    exact h4_del hwf hm.1 hm.2
  | branch model p a b c fC aA =>
    exact h4_branch hwf hm.1 hm.2.1 hm.2.2

/-- C2, witness: the branch-creation scenario of the spec (empty root,
`newBranch("hi", addAnswer)`, mounted chain `#u1` then `#0000`)
re-establishes the weight invariant after the cascade. -/
theorem c2_weight_invariant_witness :
    WInv (fixChain (applyMutation []
      (Mutation.branch (some "m") "#0000" "#u1" "#a1" (some "hi") false true)
      ([], [])).1 ["#u1", "#0000"]) :=
  c2_weight_invariant [] (Mutation.branch (some "m") "#0000" "#u1" "#a1" (some "hi") false true)
    [] [] ["#u1", "#0000"]
    (by decide) (by decide) (by decide) ⟨by decide, fun _ => by decide, by decide⟩
